import Mathlib

/-!
Verification of the virtual-filesystem core of the sshtool repository.

Go strings are modelled as `List Char` (`GoStr`), Go byte indexing as list
indexing, and Go panics (out-of-range indexing / slicing) as explicit
`Option`/error results.  All definitions are translated from the Go source
(`sftp/dir_fs.go`, the sftp package files, `sshftp.go`, the webdav wrapper);
the file states that translation explicitly at each definition.
-/

namespace Sshtool

/-- Go strings, modelled as character lists (the paths involved are ASCII). -/
abbrev GoStr := List Char

/-- The error values that occur in the modelled code paths.
`eof` is `io.EOF`; `unexpectedEOF` is `io.ErrUnexpectedEOF`; `forbidden` is
the package's `ErrForbidden`; `invalid` models `os.ErrInvalid` / the
`"invalid path"` and `"wrong path"` errors; `permission` is `os.ErrPermission`;
`notExist` is `os.ErrNotExist`; `targetExists` is the `"target path exists"`
error of `CombinedFS.Rename`; `cannotLink` the `"cannot (sym)link between
different file systems"` error; `notDirectory`/`isDirectory` the corresponding
`DirFs` errors; `panics` marks a Go runtime panic (out-of-range index). -/
inductive Err where
  | eof
  | unexpectedEOF
  | forbidden
  | invalid
  | permission
  | notExist
  | targetExists
  | cannotLink
  | notDirectory
  | isDirectory
  | ioErr
  | panics
  deriving DecidableEq, Repr

/-! ## ContainsValidDir (part_003, lines 813-843)

The Go function indexes `path[0]` unconditionally, which panics on the empty
string; the embedding returns `none` exactly in that case.  The inner
fast-forward loop (`for i < n {...}`) is `skipToNextSeg`, the outer loop is
`validDirLoop`. -/

/-- The inner loop of `ContainsValidDir`: advance `i` until just past the next
`'/'` (or to the end of the string).  The loop advances `i` by one per
iteration, so `path.length` fuel always suffices (`skipToNextSeg_fuel`):
the fuel only renders the manifest termination of the Go loop structurally. -/
def skipToNextSeg (path : GoStr) : Nat → Nat → Nat
  | 0, i => i
  | fuel + 1, i =>
    if h : i < path.length then
      if path.get ⟨i, h⟩ = '/' then i + 1
      else skipToNextSeg path fuel (i + 1)
    else i

theorem skipToNextSeg_ge (path : GoStr) (fuel i : Nat) :
    i ≤ skipToNextSeg path fuel i := by
  induction fuel generalizing i with
  | zero => simp [skipToNextSeg]
  | succ fuel ih =>
    unfold skipToNextSeg
    split
    · split
      · omega
      · have := ih (i + 1); omega
    · omega

theorem skipToNextSeg_fuel (path : GoStr) (f₁ f₂ i : Nat)
    (h₁ : path.length - i ≤ f₁) (h₂ : path.length - i ≤ f₂) :
    skipToNextSeg path f₁ i = skipToNextSeg path f₂ i := by
  induction f₁ generalizing i f₂ with
  | zero =>
    have hni : ¬ i < path.length := by omega
    cases f₂ with
    | zero => rfl
    | succ g => simp [skipToNextSeg, hni]
  | succ f₁ ih =>
    cases f₂ with
    | zero =>
      have hni : ¬ i < path.length := by omega
      simp [skipToNextSeg, hni]
    | succ g =>
      unfold skipToNextSeg
      split
      · split
        · rfl
        · exact ih g (i + 1) (by omega) (by omega)
      · rfl

/-- The outer loop of `ContainsValidDir`.  At index `i` (a segment start) it
rejects an empty segment (`//`), a `.` segment and a `..` segment, then skips
to the next segment.  Character reads other than `path[0]` are guarded by the
Go short-circuit conditions exactly as in the source, so `getD` (which never
panics on the positions actually reachable) is a faithful rendering.  Each
iteration advances `i` by at least one, so `path.length` fuel always
suffices (`validDirLoop_fuel`). -/
def validDirLoop (path : GoStr) : Nat → Nat → Bool
  | 0, _ => true
  | fuel + 1, i =>
    if _h : i < path.length then
      let n := path.length
      let ci := path.getD i ' '
      if ci = '/' ∧ 0 < i then false
      else if ci = '.' ∧ (i + 1 = n ∨ path.getD (i + 1) ' ' = '/') then false
      else if ci = '.' ∧ path.getD (i + 1) ' ' = '.' ∧
          (i + 2 = n ∨ path.getD (i + 2) ' ' = '/') then false
      else validDirLoop path fuel (skipToNextSeg path path.length (i + 1))
    else true

theorem validDirLoop_fuel (path : GoStr) (f₁ f₂ i : Nat)
    (h₁ : path.length - i ≤ f₁) (h₂ : path.length - i ≤ f₂) :
    validDirLoop path f₁ i = validDirLoop path f₂ i := by
  induction f₁ generalizing i f₂ with
  | zero =>
    have hni : ¬ i < path.length := by omega
    cases f₂ with
    | zero => rfl
    | succ g => simp [validDirLoop, hni]
  | succ f₁ ih =>
    cases f₂ with
    | zero =>
      have hni : ¬ i < path.length := by omega
      simp [validDirLoop, hni]
    | succ g =>
      unfold validDirLoop
      split
      · have hskip := skipToNextSeg_ge path path.length (i + 1)
        rename_i hi
        rw [ih g (skipToNextSeg path path.length (i + 1)) (by omega) (by omega)]
      · rfl

/-- `ContainsValidDir` from part_003.  `none` models the Go panic on the
out-of-range read `path[0]` when the input is empty. -/
def ContainsValidDir (path : GoStr) : Option Bool :=
  match path with
  | [] => none
  | c :: _ => some (validDirLoop path path.length (if c = '/' then 1 else 0))

/-! ## filepath.Clean / ToSlash / Join (Go standard library, Unix rules)

`filepath.ToSlash` is the identity on Unix (`Separator = '/'`), which is the
platform the repository's path code runs on (see sshcmd_unix.go).  `Clean` is
the lexical cleaning algorithm of Go's `path/filepath`: split on `/`, drop
empty and `.` segments, let `..` pop a previous segment (or be kept when the
path is relative, or dropped at a rooted start), reassemble. -/

/-- Split a string at every `'/'` (keeping empty segments). -/
def splitSlash : GoStr → List GoStr
  | [] => [[]]
  | c :: cs =>
    if c = '/' then [] :: splitSlash cs
    else match splitSlash cs with
      | [] => [[c]]
      | s :: rest => (c :: s) :: rest

/-- Segment processing of `filepath.Clean`: `acc` is the output stack
(reversed). -/
def cleanLoop (rooted : Bool) : List GoStr → List GoStr → List GoStr
  | [], acc => acc.reverse
  | s :: rest, acc =>
    if s = [] ∨ s = ['.'] then cleanLoop rooted rest acc
    else if s = ['.', '.'] then
      match acc with
      | t :: acc' =>
        if t = ['.', '.'] then cleanLoop rooted rest (s :: t :: acc')
        else cleanLoop rooted rest acc'
      | [] => if rooted then cleanLoop rooted rest [] else cleanLoop rooted rest [s]
    else cleanLoop rooted rest (s :: acc)

/-- `filepath.Clean` (Unix semantics). -/
def goClean (p : GoStr) : GoStr :=
  if p = [] then ['.']
  else
    let rooted := p.head? = some '/'
    let segs := cleanLoop rooted (splitSlash p) []
    let joined := (segs.intersperse ['/']).flatten
    if rooted then '/' :: joined
    else if joined = [] then ['.']
    else joined

/-- `filepath.Join(a, b)` (Unix semantics): drop empty elements, join the rest
with `/`, then `Clean`; all-empty input yields the empty string. -/
def goJoin (a b : GoStr) : GoStr :=
  if a = [] then (if b = [] then [] else goClean b)
  else if b = [] then goClean a
  else goClean (a ++ '/' :: b)

/-! ## normalizePath (part_003, lines 799-809) -/

/-- `normalizePath` from part_003: `filepath.Clean`, `ToSlash` (identity on
Unix), the (dead after `Clean`) empty-string fallback to `/`, then
`ContainsValidDir`; a failed validation is the `"wrong path"` error, a
panicking validation of the empty string is modelled as `Err.panics`
(unreachable because `Clean` never returns an empty string). -/
def normalizePath (path : GoStr) : Except Err GoStr :=
  let path := goClean path
  let path := if path = [] then ['/'] else path
  match ContainsValidDir path with
  | none => .error .panics
  | some false => .error .invalid
  | some true => .ok path

/-! ## DirFs (sftp/dir_fs.go) -/

/-- `DirFs` from sftp/dir_fs.go: a native directory mount. -/
structure DirFs where
  Root : GoStr
  Readonly : Bool
  deriving DecidableEq, Repr

/-- The host path `DirFs.IntoAbsPath` computes before its guards:
`filepath.Join(d.Root, path)` (`ToSlash` is the identity on Unix) and the
re-append of a `/` when `Join` stripped the root's trailing slash
(`len(realPath) == len(d.Root)-1`; the comparison is on Go `int`s, hence the
`Int` cast). -/
def dirFsRealPath (root : GoStr) (path : GoStr) : GoStr :=
  let realPath := goJoin root path
  if (realPath.length : Int) = (root.length : Int) - 1 then realPath ++ ['/']
  else realPath

/-- `DirFs.IntoAbsPath` from sftp/dir_fs.go lines 45-55.  The guard
`!ContainsValidDir(realPath) || realPath[:len(d.Root)] != d.Root` is
translated with Go's short-circuit order; the slice `realPath[:len(d.Root)]`
panics when `realPath` is shorter than the root, which the embedding returns
as `Err.panics`. -/
def DirFs.IntoAbsPath (d : DirFs) (path : GoStr) : Except Err GoStr :=
  let realPath := dirFsRealPath d.Root path
  match ContainsValidDir realPath with
  | none => .error .panics
  | some false => .error .invalid
  | some true =>
    if d.Root.length ≤ realPath.length then
      if realPath.take d.Root.length ≠ d.Root then .error .invalid
      else .ok realPath
    else .error .panics

end Sshtool

namespace Sshtool

/-- Decidable equality on `Except`, used to evaluate results on concrete
inputs. -/
instance {ε α : Type} [DecidableEq ε] [DecidableEq α] : DecidableEq (Except ε α) := fun x y =>
  match x, y with
  | .ok a, .ok b =>
    if h : a = b then .isTrue (by rw [h]) else .isFalse (fun hc => h (Except.ok.inj hc))
  | .error a, .error b =>
    if h : a = b then .isTrue (by rw [h]) else .isFalse (fun hc => h (Except.error.inj hc))
  | .ok _, .error _ => .isFalse (fun hc => Except.noConfusion hc)
  | .error _, .ok _ => .isFalse (fun hc => Except.noConfusion hc)

/-! ## Claims C1, C5, C10 -/

/-- **C1.** For every `DirFs` with root `r` and every virtual path `p`: if
`IntoAbsPath p` returns a host path without error, that host path begins with
`r`; and whenever the mapped host path (`join(r, p)` after normalization,
including the trailing-slash re-append of the source) does not begin with `r`
or fails the `ContainsValidDir` validation, `IntoAbsPath` fails with an error
instead of returning a path. -/
theorem dirFs_intoAbsPath_contained (root p : GoStr) (ro : Bool) :
    (∀ abs, DirFs.IntoAbsPath ⟨root, ro⟩ p = .ok abs → root <+: abs) ∧
    ((¬ root <+: dirFsRealPath root p ∨ ContainsValidDir (dirFsRealPath root p) ≠ some true) →
      ∃ e, DirFs.IntoAbsPath ⟨root, ro⟩ p = .error e) := by
  cases hv : ContainsValidDir (dirFsRealPath root p) with
  | none =>
    refine ⟨fun abs h => ?_, fun _ => ⟨.panics, ?_⟩⟩
    · simp [DirFs.IntoAbsPath, hv] at h
    · simp [DirFs.IntoAbsPath, hv]
  | some b =>
    cases b with
    | false =>
      refine ⟨fun abs h => ?_, fun _ => ⟨.invalid, ?_⟩⟩
      · simp [DirFs.IntoAbsPath, hv] at h
      · simp [DirFs.IntoAbsPath, hv]
    | true =>
      by_cases hle : root.length ≤ (dirFsRealPath root p).length
      · by_cases htake : (dirFsRealPath root p).take root.length = root
        · have hpre : root <+: dirFsRealPath root p :=
            List.prefix_iff_eq_take.mpr htake.symm
          refine ⟨fun abs h => ?_, fun hcontra => ?_⟩
          · simp [DirFs.IntoAbsPath, hv, hle, htake] at h
            rw [← h]; exact hpre
          · rcases hcontra with hnp | hne
            · exact absurd hpre hnp
            · exact absurd rfl hne
        · refine ⟨fun abs h => ?_, fun _ => ⟨.invalid, ?_⟩⟩
          · simp [DirFs.IntoAbsPath, hv, hle, htake] at h
          · simp [DirFs.IntoAbsPath, hv, hle, htake]
      · refine ⟨fun abs h => ?_, fun _ => ⟨.panics, ?_⟩⟩
        · simp [DirFs.IntoAbsPath, hv, hle] at h
        · simp [DirFs.IntoAbsPath, hv, hle]

/-- Witness for C1: the containment conclusion at the concrete mount root
`/srv/a` and virtual path `/x/y`. -/
theorem dirFs_intoAbsPath_contained_witness :
    "/srv/a".toList <+: "/srv/a/x/y".toList :=
  (dirFs_intoAbsPath_contained "/srv/a".toList "/x/y".toList false).1
    "/srv/a/x/y".toList (by decide)

/-- **C5 (counterexample).** The claim states `normalize("/a/b/../c")` fails
with Invalid; in the code `filepath.Clean` resolves the `..` segment first, so
`normalizePath` returns `/a/c` successfully and does not fail. -/
theorem normalizePath_dotdot_counterexample :
    normalizePath "/a/b/../c".toList ≠ Except.error Err.invalid := by decide

/-- **C5 (amended).** The normalizer's actual behaviour on the four inputs of
the claim: `/a/b/../c` is cleaned to `/a/c` (not rejected), `/a//b` is cleaned
to `/a/b` (not rejected), `/a/.hidden/b` is returned unchanged, and `""` is
cleaned to `"."` which fails validation (it does not return `/`). -/
theorem normalizePath_scenarios :
    normalizePath "/a/b/../c".toList = .ok "/a/c".toList ∧
    normalizePath "/a//b".toList = .ok "/a/b".toList ∧
    normalizePath "/a/.hidden/b".toList = .ok "/a/.hidden/b".toList ∧
    normalizePath "".toList = .error .invalid := by decide

/-- **C10.** `ContainsValidDir` reads `path[0]` unconditionally: it panics
(modelled as `none`) exactly on the empty string, and terminates with a
boolean on every non-empty string.  Termination is expressed as fuel
irrelevance: giving the loop any fuel beyond `path.length` (which bounds the
number of loop iterations, since `i` strictly increases) never changes the
result. -/
theorem containsValidDir_total_iff_nonempty :
    ContainsValidDir [] = none ∧
    (∀ (c : Char) (cs : GoStr), ∃ b, ContainsValidDir (c :: cs) = some b) ∧
    (∀ (path : GoStr) (extra i : Nat),
      validDirLoop path (path.length + extra) i = validDirLoop path path.length i) :=
  ⟨rfl, fun _ _ => ⟨_, rfl⟩,
    fun path extra i => validDirLoop_fuel path _ _ i (by omega) (by omega)⟩

end Sshtool

namespace Sshtool

/-! ## The SimplifiedFS interface and PermWrapperFS (sftp/dir_fs.go)

A compiled `*regexp.Regexp` is modelled as its matching function
`GoStr → Bool` (`MatchString`); `regexp.Compile` failures are outside the
claims considered here.  `os.FileInfo` is modelled by the fields the code
reads.  A directory-listing function `func([]os.FileInfo, int64) (int, error)`
is modelled as `ListFn`, mapping the buffer length and the offset to the
entries written (`n` is their count) and the returned error. -/

/-- A compiled regular expression, modelled by `MatchString`. -/
abbrev Regexp := GoStr → Bool

/-- The fields of `os.FileInfo` that the modelled code reads. -/
structure FileInfo where
  name : GoStr
  size : Int
  mode : Nat
  modTime : Int
  isDir : Bool
  deriving DecidableEq, Repr

/-- A directory-listing fill function: buffer length and offset to the
entries written and the error returned. -/
abbrev ListFn := Nat → Nat → List FileInfo × Option Err

/-- The `SimplifiedFS` interface of the sftp package, as a record of
operations; the reader and writer object types are parameters `ρ` and `ω`
(the permission wrapper never inspects them). -/
structure SFSI (ρ ω : Type) where
  List : GoStr → Except Err ListFn
  Lstat : GoStr → Except Err FileInfo
  Stat : GoStr → Except Err FileInfo
  ReadLink : GoStr → Except Err FileInfo
  Read : GoStr → Except Err ρ
  Write : GoStr → Except Err ω
  SetStat : GoStr → Except Err Unit
  Rename : GoStr → GoStr → Except Err Unit
  Rmdir : GoStr → Except Err Unit
  Rm : GoStr → Except Err Unit
  Mkdir : GoStr → Except Err Unit
  Link : GoStr → GoStr → Except Err Unit
  Symlink : GoStr → GoStr → Except Err Unit

/-- `PermWrapperFS` from sftp/dir_fs.go: wraps an inner `SimplifiedFS` with
read/write/hide regular-expression policies.  (`SetStat`'s flag and
attribute arguments are dropped from `SFSI.SetStat`: the wrapper passes them
through unread.) -/
structure PermWrapperFS (ρ ω : Type) where
  Inner : SFSI ρ ω
  CanReadRegexp : List Regexp
  CanWriteRegexp : List Regexp
  ShouldHideRegexp : List Regexp

/-- `PermWrapperFS.CanRead`: any-match over the read list. -/
def PermWrapperFS.CanRead (p : PermWrapperFS ρ ω) (path : GoStr) : Bool :=
  p.CanReadRegexp.any (fun r => r path)

/-- `PermWrapperFS.CanWrite`: any-match over the write list. -/
def PermWrapperFS.CanWrite (p : PermWrapperFS ρ ω) (path : GoStr) : Bool :=
  p.CanWriteRegexp.any (fun r => r path)

/-- `PermWrapperFS.ShouldHide`: any-match over the hide list. -/
def PermWrapperFS.ShouldHide (p : PermWrapperFS ρ ω) (path : GoStr) : Bool :=
  p.ShouldHideRegexp.any (fun r => r path)

/-- The `contains` helper of sftp/dir_fs.go (membership in the hidden-index
list). -/
def containsL (array : List Nat) (element : Nat) : Bool :=
  array.any (fun item => item = element)

/-- The captured mutable state of the filtered-listing closure returned by
`PermWrapperFS.List`: `idxToHide` and `maxOffsetYet`. -/
structure PermState where
  idxToHide : List Nat
  maxOffsetYet : Nat
  deriving DecidableEq, Repr

/-- Result of the skip loop (`for i < offset`) of the filtered lister:
either an early `return 0, err` or the computed inner offset, in both cases
with the updated captured state. -/
inductive SkipRes where
  | fail (e : Err) (S : List Nat) (M : Nat)
  | done (rOff : Nat) (S : List Nat) (M : Nat)
  deriving Repr

/-- The skip loop (`for i < offset`) of the filtered lister in
`PermWrapperFS.List` (sftp/dir_fs.go lines 385-410): advance the inner
offset `rOff` past `offset` visible entries, consulting the cached hidden
indices `S` and probing the inner iterator one entry at a time for inner
positions not processed before (`i ≥ M`).  Go's `int64` offsets are `Nat`
(every offset reached is non-negative).  The loop advances `i` or `rOff`
every iteration; `fuel` renders it structural, and the claims supply
sufficient fuel. -/
def permSkipLoop (iter : ListFn) (hideFull : GoStr → Bool) (offset : Nat) :
    Nat → Nat → Nat → List Nat → Nat → Option SkipRes
  | 0, _, _, _, _ => none
  | fuel + 1, i, rOff, S, M =>
    if i < offset then
      if i < M ∧ ¬ containsL S rOff then
        permSkipLoop iter hideFull offset fuel (i + 1) (rOff + 1) S M
      else if M ≤ i then
        let M' := M + 1
        let (entries, err) := iter 1 rOff
        match err with
        | some e => some (.fail e S M')
        | none =>
          match entries with
          | [] => some (.fail .unexpectedEOF S M')
          | fi :: _ =>
            if hideFull fi.name then
              permSkipLoop iter hideFull offset fuel i (rOff + 1) (S ++ [rOff]) M'
            else
              permSkipLoop iter hideFull offset fuel (i + 1) (rOff + 1) S M'
      else
        permSkipLoop iter hideFull offset fuel i (rOff + 1) S M
    else
      some (.done rOff S M)

/-- The per-batch filtering of the emit loop (sftp/dir_fs.go lines 423-434):
walk the raw entries of one inner batch starting at inner index `idx`,
collect the visible ones and record the hidden indices. -/
def permClassify (hideFull : GoStr → Bool) :
    List FileInfo → Nat → List Nat → Nat → List FileInfo × List Nat × Nat
  | [], _, S, M => ([], S, M)
  | fi :: rest, idx, S, M =>
    if hideFull fi.name then
      let S' := if containsL S idx then S else S ++ [idx]
      permClassify hideFull rest (idx + 1) S' (Nat.max idx M)
    else
      let (es, S', M') := permClassify hideFull rest (idx + 1) S M
      (fi :: es, S', M')

/-- The emit loop (`for j == 0 && !eof`) of the filtered lister
(sftp/dir_fs.go lines 412-436): pull inner batches of the buffer size from
`rOff`, filter them, and stop at the first batch contributing a visible
entry or at inner EOF.  Returns the visible entries, the EOF flag and the
updated state; a non-EOF inner error is an early `return 0, err`. -/
def permBatchLoop (iter : ListFn) (hideFull : GoStr → Bool) (bufLen : Nat) :
    Nat → Nat → List Nat → Nat → Option (List FileInfo × Option Err × List Nat × Nat)
  | 0, _, _, _ => none
  | fuel + 1, rOff, S, M =>
    let (raw, err) := iter bufLen rOff
    match err with
    | some e =>
      if e = .eof then
        let (es, S', M') := permClassify hideFull raw rOff S M
        some (es, some .eof, S', M')
      else
        some ([], some e, S, M)
    | none =>
      let (es, S', M') := permClassify hideFull raw rOff S M
      if es.isEmpty then permBatchLoop iter hideFull bufLen fuel (rOff + raw.length) S' M'
      else some (es, none, S', M')

/-- One `fill(ls, offset)` call of the filtered-listing closure of
`PermWrapperFS.List`: run the skip loop, then the emit loop; the captured
state is threaded explicitly. -/
def permFill (iter : ListFn) (hideFull : GoStr → Bool) (fuel : Nat)
    (bufLen offset : Nat) (st : PermState) :
    Option ((List FileInfo × Option Err) × PermState) :=
  match permSkipLoop iter hideFull offset fuel 0 0 st.idxToHide st.maxOffsetYet with
  | none => none
  | some (.fail e S M) => some (([], some e), ⟨S, M⟩)
  | some (.done rOff S M) =>
    match permBatchLoop iter hideFull bufLen fuel rOff S M with
    | none => none
    | some (es, err, S', M') => some ((es, err), ⟨S', M'⟩)

/-- The iterator returned by `PermWrapperFS.List`: the inner iterator
unchanged when the hide list is empty, otherwise the filtered closure with
its hide predicate on the full virtual path `join(path, name)`. -/
inductive PermListIter where
  | passthrough (f : ListFn)
  | filtered (f : ListFn) (hideFull : GoStr → Bool)

/-- `PermWrapperFS.List` (sftp/dir_fs.go lines 360-443): the permission
guard, then the choice between the passthrough and the filtered iterator. -/
def PermWrapperFS.List (p : PermWrapperFS ρ ω) (path : GoStr) :
    Except Err PermListIter :=
  if ¬ p.CanRead path ∨ p.ShouldHide path then .error .forbidden
  else
    match p.Inner.List path with
    | .error e => .error e
    | .ok iter =>
      if p.ShouldHideRegexp.length = 0 then .ok (.passthrough iter)
      else .ok (.filtered iter (fun name => p.ShouldHide (goJoin path name)))

/-- `PermWrapperFS.Lstat`. -/
def PermWrapperFS.Lstat (p : PermWrapperFS ρ ω) (path : GoStr) : Except Err FileInfo :=
  if p.CanRead path ∧ ¬ p.ShouldHide path then p.Inner.Lstat path else .error .forbidden

/-- `PermWrapperFS.Stat`. -/
def PermWrapperFS.Stat (p : PermWrapperFS ρ ω) (path : GoStr) : Except Err FileInfo :=
  if p.CanRead path ∧ ¬ p.ShouldHide path then p.Inner.Stat path else .error .forbidden

/-- `PermWrapperFS.ReadLink`. -/
def PermWrapperFS.ReadLink (p : PermWrapperFS ρ ω) (path : GoStr) : Except Err FileInfo :=
  if p.CanRead path ∧ ¬ p.ShouldHide path then p.Inner.ReadLink path else .error .forbidden

/-- `PermWrapperFS.Read`. -/
def PermWrapperFS.Read (p : PermWrapperFS ρ ω) (path : GoStr) : Except Err ρ :=
  if p.CanRead path ∧ ¬ p.ShouldHide path then p.Inner.Read path else .error .forbidden

/-- `PermWrapperFS.Write`. -/
def PermWrapperFS.Write (p : PermWrapperFS ρ ω) (path : GoStr) : Except Err ω :=
  if p.CanWrite path ∧ ¬ p.ShouldHide path then p.Inner.Write path else .error .forbidden

/-- `PermWrapperFS.SetStat`. -/
def PermWrapperFS.SetStat (p : PermWrapperFS ρ ω) (path : GoStr) : Except Err Unit :=
  if p.CanWrite path ∧ ¬ p.ShouldHide path then p.Inner.SetStat path else .error .forbidden

/-- `PermWrapperFS.Rename`. -/
def PermWrapperFS.Rename (p : PermWrapperFS ρ ω) (src dst : GoStr) : Except Err Unit :=
  if p.CanWrite src ∧ p.CanWrite dst ∧ ¬ p.ShouldHide src ∧ ¬ p.ShouldHide dst then
    p.Inner.Rename src dst
  else .error .forbidden

/-- `PermWrapperFS.Rmdir`. -/
def PermWrapperFS.Rmdir (p : PermWrapperFS ρ ω) (path : GoStr) : Except Err Unit :=
  if p.CanWrite path ∧ ¬ p.ShouldHide path then p.Inner.Rmdir path else .error .forbidden

/-- `PermWrapperFS.Rm`. -/
def PermWrapperFS.Rm (p : PermWrapperFS ρ ω) (path : GoStr) : Except Err Unit :=
  if p.CanWrite path ∧ ¬ p.ShouldHide path then p.Inner.Rm path else .error .forbidden

/-- `PermWrapperFS.Mkdir`. -/
def PermWrapperFS.Mkdir (p : PermWrapperFS ρ ω) (path : GoStr) : Except Err Unit :=
  if p.CanWrite path ∧ ¬ p.ShouldHide path then p.Inner.Mkdir path else .error .forbidden

/-- `PermWrapperFS.Link`. -/
def PermWrapperFS.Link (p : PermWrapperFS ρ ω) (src dst : GoStr) : Except Err Unit :=
  if p.CanRead src ∧ p.CanWrite dst ∧ ¬ p.ShouldHide src ∧ ¬ p.ShouldHide dst then
    p.Inner.Link src dst
  else .error .forbidden

/-- `PermWrapperFS.Symlink`. -/
def PermWrapperFS.Symlink (p : PermWrapperFS ρ ω) (src dst : GoStr) : Except Err Unit :=
  if p.CanRead src ∧ p.CanWrite dst ∧ ¬ p.ShouldHide src ∧ ¬ p.ShouldHide dst then
    p.Inner.Symlink src dst
  else .error .forbidden

end Sshtool

namespace Sshtool

/-! ## EmptyFS (sftp/empty_fs.go) and server wiring (sshftp.go) -/

/-- `topDirPath` from part_003: the synthesized `FileInfo` of a virtual
directory (size 480, mode `0755 | os.ModeDir`, a fixed 2022-03-20 mtime,
`IsDir` true). -/
def topDirPath (t : GoStr) : FileInfo :=
  { name := t, size := 480, mode := 0o755 + 2 ^ 31, modTime := 1647734400, isDir := true }

/-- `EmptyFS` from sftp/empty_fs.go: the null filesystem.  Listing yields
zero entries and EOF; `Stat`/`Lstat`/`ReadLink` synthesize a root directory
for `/` and return `os.ErrInvalid` elsewhere; `Read` returns
`os.ErrNotExist`; every mutation returns `os.ErrPermission`. -/
def EmptyFS (ρ ω : Type) : SFSI ρ ω where
  List := fun _ => .ok (fun _ _ => ([], some .eof))
  Lstat := fun path => if path = ['/'] then .ok (topDirPath ['/']) else .error .invalid
  Stat := fun path => if path = ['/'] then .ok (topDirPath ['/']) else .error .invalid
  ReadLink := fun path => if path = ['/'] then .ok (topDirPath ['/']) else .error .invalid
  Read := fun _ => .error .notExist
  Write := fun _ => .error .permission
  SetStat := fun _ => .error .permission
  Rename := fun _ _ => .error .permission
  Rmdir := fun _ => .error .permission
  Rm := fun _ => .error .permission
  Mkdir := fun _ => .error .permission
  Link := fun _ _ => .error .permission
  Symlink := fun _ _ => .error .permission

/-- The filesystem `ConfigSftp.CreateFS` (sshftp.go) hands to a session:
either the raw mount filesystem, or that filesystem wrapped in a
`PermWrapperFS`. -/
inductive CreatedFS (ρ ω : Type) where
  | raw (fs : SFSI ρ ω)
  | wrapped (w : PermWrapperFS ρ ω)

/-- The wrapping decision of `ConfigSftp.CreateFS` (sshftp.go lines 163-190):
the inner filesystem (built by `createFSWithoutPermission`) is served raw
exactly when all three policy lists of the user entry are empty, and is
wrapped in a `PermWrapperFS` over those lists otherwise.  `regexp.Compile`
is modelled as the already-compiled matcher (`Regexp`); its failure path is
not modelled. -/
def createFS (inner : SFSI ρ ω)
    (canRead canWrite shouldHide : List Regexp) : CreatedFS ρ ω :=
  if shouldHide.length = 0 ∧ canRead.length = 0 ∧ canWrite.length = 0 then .raw inner
  else .wrapped ⟨inner, canRead, canWrite, shouldHide⟩

/-! ## Claims C2 and C9 -/

/-- **C2.** For every `PermWrapperFS` and every path that matches at least
one `shouldHide` expression, every operation — `rename`, `link`, `symlink`
with the hidden path on either side — returns `Forbidden`.  The wrapper `p`
(hence its inner filesystem and its `canRead`/`canWrite` lists) is
universally quantified and the conclusion does not depend on it, so no inner
operation is consulted. -/
theorem permWrapper_hidden_all_forbidden {ρ ω : Type} (p : PermWrapperFS ρ ω)
    (path other : GoStr) (h : p.ShouldHide path = true) :
    p.List path = .error .forbidden ∧
    p.Stat path = .error .forbidden ∧
    p.Lstat path = .error .forbidden ∧
    p.ReadLink path = .error .forbidden ∧
    p.Read path = .error .forbidden ∧
    p.Write path = .error .forbidden ∧
    p.SetStat path = .error .forbidden ∧
    p.Rmdir path = .error .forbidden ∧
    p.Rm path = .error .forbidden ∧
    p.Mkdir path = .error .forbidden ∧
    p.Rename path other = .error .forbidden ∧
    p.Rename other path = .error .forbidden ∧
    p.Link path other = .error .forbidden ∧
    p.Link other path = .error .forbidden ∧
    p.Symlink path other = .error .forbidden ∧
    p.Symlink other path = .error .forbidden := by
  simp [PermWrapperFS.List, PermWrapperFS.Stat, PermWrapperFS.Lstat,
    PermWrapperFS.ReadLink, PermWrapperFS.Read, PermWrapperFS.Write,
    PermWrapperFS.SetStat, PermWrapperFS.Rmdir, PermWrapperFS.Rm,
    PermWrapperFS.Mkdir, PermWrapperFS.Rename, PermWrapperFS.Link,
    PermWrapperFS.Symlink, h]

/-- Witness for C2 at a concrete wrapper (inner `EmptyFS`, hide-all policy)
and the path `/secret`. -/
theorem permWrapper_hidden_all_forbidden_witness :
    (PermWrapperFS.Stat
      ⟨EmptyFS Unit Unit, [fun _ => true], [], [fun _ => true]⟩
      "/secret".toList : Except Err FileInfo) = .error .forbidden :=
  (permWrapper_hidden_all_forbidden
    ⟨EmptyFS Unit Unit, [fun _ => true], [], [fun _ => true]⟩
    "/secret".toList "/other".toList (by rfl)).2.1

/-- **C9.** With an empty `CanReadRegexp` list, `CanRead` (an any-match over
the list) is constantly false, so every read operation of the wrapper
returns `Forbidden` for every path; `ConfigSftp.CreateFS` wraps the mount
filesystem whenever at least one of the three per-user policy lists is
non-empty; hence a user configured with only `shouldHide` patterns gets a
wrapper with empty `canRead` and `canWrite` lists, for which every
operation, read or write, returns `Forbidden`. -/
theorem emptyCanRead_forbids_and_server_wraps {ρ ω : Type} (inner : SFSI ρ ω)
    (sh : List Regexp) (path other : GoStr) :
    (∀ (p : PermWrapperFS ρ ω), p.CanReadRegexp = [] →
      p.List path = .error .forbidden ∧
      p.Stat path = .error .forbidden ∧
      p.Lstat path = .error .forbidden ∧
      p.ReadLink path = .error .forbidden ∧
      p.Read path = .error .forbidden) ∧
    (∀ (cr cw sh' : List Regexp), cr ≠ [] ∨ cw ≠ [] ∨ sh' ≠ [] →
      createFS inner cr cw sh' = .wrapped ⟨inner, cr, cw, sh'⟩) ∧
    (PermWrapperFS.List ⟨inner, [], [], sh⟩ path = .error .forbidden ∧
      PermWrapperFS.Stat ⟨inner, [], [], sh⟩ path = .error .forbidden ∧
      PermWrapperFS.Lstat ⟨inner, [], [], sh⟩ path = .error .forbidden ∧
      PermWrapperFS.ReadLink ⟨inner, [], [], sh⟩ path = .error .forbidden ∧
      PermWrapperFS.Read ⟨inner, [], [], sh⟩ path = .error .forbidden ∧
      PermWrapperFS.Write ⟨inner, [], [], sh⟩ path = .error .forbidden ∧
      PermWrapperFS.SetStat ⟨inner, [], [], sh⟩ path = .error .forbidden ∧
      PermWrapperFS.Rmdir ⟨inner, [], [], sh⟩ path = .error .forbidden ∧
      PermWrapperFS.Rm ⟨inner, [], [], sh⟩ path = .error .forbidden ∧
      PermWrapperFS.Mkdir ⟨inner, [], [], sh⟩ path = .error .forbidden ∧
      PermWrapperFS.Rename ⟨inner, [], [], sh⟩ path other = .error .forbidden ∧
      PermWrapperFS.Link ⟨inner, [], [], sh⟩ path other = .error .forbidden ∧
      PermWrapperFS.Symlink ⟨inner, [], [], sh⟩ path other = .error .forbidden) := by
  refine ⟨fun p hp => ?_, fun cr cw sh' h => ?_, ?_⟩
  · have hcr : p.CanRead path = false := by
      simp [PermWrapperFS.CanRead, hp]
    simp [PermWrapperFS.List, PermWrapperFS.Stat, PermWrapperFS.Lstat,
      PermWrapperFS.ReadLink, PermWrapperFS.Read, hcr]
  · have hcond : ¬ (sh'.length = 0 ∧ cr.length = 0 ∧ cw.length = 0) := by
      rcases h with h | h | h <;> simp [List.length_eq_zero] <;> tauto
    unfold createFS
    rw [if_neg hcond]
  · simp [PermWrapperFS.List, PermWrapperFS.Stat, PermWrapperFS.Lstat,
      PermWrapperFS.ReadLink, PermWrapperFS.Read, PermWrapperFS.Write,
      PermWrapperFS.SetStat, PermWrapperFS.Rmdir, PermWrapperFS.Rm,
      PermWrapperFS.Mkdir, PermWrapperFS.Rename, PermWrapperFS.Link,
      PermWrapperFS.Symlink, PermWrapperFS.CanRead, PermWrapperFS.CanWrite]

/-- Witness for C9: the server wraps a user entry that has only a
`shouldHide` pattern, and the resulting wrapper forbids a concrete read. -/
theorem emptyCanRead_forbids_and_server_wraps_witness :
    createFS (EmptyFS Unit Unit) [] [] [fun _ => true] =
      .wrapped ⟨EmptyFS Unit Unit, [], [], [fun _ => true]⟩ ∧
    PermWrapperFS.Read ⟨EmptyFS Unit Unit, [], [], [fun _ => true]⟩ "/x".toList =
      (.error .forbidden : Except Err Unit) :=
  ⟨(emptyCanRead_forbids_and_server_wraps (EmptyFS Unit Unit) [fun _ => true]
      "/x".toList "/y".toList).2.1 [] [] [fun _ => true]
      (Or.inr (Or.inr (by simp))),
   ((emptyCanRead_forbids_and_server_wraps (EmptyFS Unit Unit) [fun _ => true]
      "/x".toList "/y".toList).1 ⟨EmptyFS Unit Unit, [], [], [fun _ => true]⟩ rfl).2.2.2.2⟩

end Sshtool

namespace Sshtool

/-! ## The stable inner lister and the filtered-listing correctness (claim C3)

`DirFs.List` (sftp/dir_fs.go lines 57-87) materializes the directory once
and serves slices by offset; `sliceFill` is that returned closure over the
cached entries, and is the "stable inner directory listing" of the claim. -/

/-- The closure returned by `DirFs.List`: serve `fileinfos[offset:]` capped
at the buffer length (`copy`), with EOF when the offset is past the end or
the final entry was delivered (`n < len(ls)`). -/
def sliceFill (infos : List FileInfo) : ListFn := fun bufLen offset =>
  if infos.length ≤ offset then ([], some .eof)
  else
    let n := min bufLen (infos.length - offset)
    (( infos.drop offset).take n, if n < bufLen then some .eof else none)

/-- Specification side: whether the entry at inner index `k` is hidden. -/
def hiddenAt (infos : List FileInfo) (hide : GoStr → Bool) (k : Nat) : Bool :=
  match infos[k]? with
  | some fi => hide fi.name
  | none => false

/-- Specification side: the visibility predicate on entries. -/
def visB (hide : GoStr → Bool) (fi : FileInfo) : Bool := ! hide fi.name

/-- Specification side: the number of visible entries among the first `k`
inner entries. -/
def visCount (infos : List FileInfo) (hide : GoStr → Bool) (k : Nat) : Nat :=
  ((infos.take k).filter (visB hide)).length

/-- The state invariant of the filtered lister: the cached hidden-index list
`S` records exactly the hidden entries of the classified prefix `[0, C)`.
The `maxOffsetYet` counter needs no constraint: it only selects between the
cache branch and the probe branch of the skip loop, and both are correct on
the classified prefix. -/
def PermInv (infos : List FileInfo) (hide : GoStr → Bool) (S : List Nat) (C : Nat) : Prop :=
  C ≤ infos.length ∧
  (∀ k ∈ S, k < C ∧ hiddenAt infos hide k = true) ∧
  (∀ k, k < C → hiddenAt infos hide k = true → k ∈ S)

theorem containsL_iff (S : List Nat) (k : Nat) : containsL S k = true ↔ k ∈ S := by
  simp [containsL, List.any_eq_true]

theorem visCount_zero (infos : List FileInfo) (hide : GoStr → Bool) :
    visCount infos hide 0 = 0 := rfl

theorem visCount_succ (infos : List FileInfo) (hide : GoStr → Bool) (k : Nat)
    (hk : k < infos.length) :
    visCount infos hide (k + 1) =
      visCount infos hide k + (if hiddenAt infos hide k then 0 else 1) := by
  have hget : infos[k]? = some infos[k] := List.getElem?_eq_getElem hk
  simp only [visCount, List.take_succ, List.filter_append, List.length_append, hget,
    Option.toList_some]
  unfold hiddenAt
  rw [hget]
  cases hh : hide infos[k].name with
  | false => simp [visB, hh]
  | true => simp [visB, hh]

theorem visCount_le_succ (infos : List FileInfo) (hide : GoStr → Bool) (k : Nat) :
    visCount infos hide k ≤ visCount infos hide (k + 1) := by
  rcases Nat.lt_or_ge k infos.length with hk | hk
  · rw [visCount_succ infos hide k hk]; split <;> omega
  · have h1 : infos.take (k + 1) = infos := List.take_of_length_le (by omega)
    have h2 : infos.take k = infos := List.take_of_length_le hk
    simp [visCount, h1, h2]

theorem visCount_mono (infos : List FileInfo) (hide : GoStr → Bool) {a b : Nat}
    (h : a ≤ b) : visCount infos hide a ≤ visCount infos hide b := by
  induction h with
  | refl => exact le_refl _
  | step _ ih => exact le_trans ih (visCount_le_succ _ _ _)

/-- The segment of inner entries `[a, b)`. -/
def seg (infos : List FileInfo) (a b : Nat) : List FileInfo :=
  (infos.drop a).take (b - a)

theorem seg_getElem? (infos : List FileInfo) (a b i : Nat) (hi : i < b - a) :
    (seg infos a b)[i]? = infos[a + i]? := by
  simp [seg, List.getElem?_take, hi, List.getElem?_drop]

theorem seg_split (infos : List FileInfo) (a m b : Nat) (h₁ : a ≤ m) (h₂ : m ≤ b) :
    seg infos a b = seg infos a m ++ seg infos m b := by
  have hd : (infos.drop a).drop (m - a) = infos.drop m := by
    rw [List.drop_drop]; congr 1; omega
  calc seg infos a b = (infos.drop a).take ((m - a) + (b - m)) := by
        rw [seg]; congr 1; omega
    _ = (infos.drop a).take (m - a) ++ ((infos.drop a).drop (m - a)).take (b - m) :=
        List.take_add _ _ _
    _ = seg infos a m ++ seg infos m b := by rw [hd]; rfl

theorem visCount_add_seg (infos : List FileInfo) (hide : GoStr → Bool) (a b : Nat)
    (h₁ : a ≤ b) (h₂ : b ≤ infos.length) :
    visCount infos hide b =
      visCount infos hide a + ((seg infos a b).filter (visB hide)).length := by
  have hsplit : infos.take b = infos.take a ++ seg infos a b := by
    calc infos.take b = infos.take (a + (b - a)) := by congr 1; omega
      _ = infos.take a ++ (infos.drop a).take (b - a) := List.take_add _ _ _
      _ = infos.take a ++ seg infos a b := rfl
  simp [visCount, hsplit, List.filter_append]

end Sshtool

namespace Sshtool

theorem filter_drop (infos : List FileInfo) (hide : GoStr → Bool) (k : Nat) :
    (infos.drop k).filter (visB hide) =
      (infos.filter (visB hide)).drop (visCount infos hide k) := by
  induction infos generalizing k with
  | nil => simp [visCount]
  | cons fi rest ih =>
    cases k with
    | zero => simp [visCount]
    | succ j =>
      have hv : visCount (fi :: rest) hide (j + 1) =
          (if visB hide fi then 1 else 0) + visCount rest hide j := by
        simp only [visCount, List.take_succ_cons, List.filter_cons]
        cases hfi : visB hide fi <;> simp [hfi, Nat.add_comm]
      rw [List.drop_succ_cons, ih j, List.filter_cons, hv]
      cases hfi : visB hide fi with
      | false => simp [hfi]
      | true => simp [hfi, Nat.add_comm 1 (visCount rest hide j)]

theorem permClassify_spec (infos : List FileInfo) (hide : GoStr → Bool)
    (raw : List FileInfo) :
    ∀ (idx : Nat) (S : List Nat) (M : Nat),
    (∀ i, i < raw.length → raw[i]? = infos[idx + i]?) →
    (permClassify hide raw idx S M).1 = raw.filter (visB hide) ∧
    (∀ k, k ∈ (permClassify hide raw idx S M).2.1 ↔
      k ∈ S ∨ (idx ≤ k ∧ k < idx + raw.length ∧ hiddenAt infos hide k = true)) := by
  induction raw with
  | nil =>
    intro idx S M _
    constructor
    · rfl
    · intro k
      simp only [permClassify, List.length_nil]
      constructor
      · exact fun h => Or.inl h
      · rintro (h | ⟨h1, h2, _⟩)
        · exact h
        · omega
  | cons fi rest ih =>
    intro idx S M hcorr
    have h0 : infos[idx]? = some fi := by
      have := hcorr 0 (by simp)
      simpa using this.symm
    have hhid : hiddenAt infos hide idx = hide fi.name := by
      simp [hiddenAt, h0]
    have hcorr' : ∀ i, i < rest.length → rest[i]? = infos[idx + 1 + i]? := by
      intro i hi
      have := hcorr (i + 1) (by simp; omega)
      simpa [Nat.add_assoc, Nat.add_comm 1 i] using this
    cases hfi : hide fi.name with
    | true =>
      have hres := ih (idx + 1) (if containsL S idx then S else S ++ [idx]) (Nat.max idx M) hcorr'
      have hstep : permClassify hide (fi :: rest) idx S M =
          permClassify hide rest (idx + 1)
            (if containsL S idx then S else S ++ [idx]) (Nat.max idx M) := by
        simp [permClassify, hfi]
      constructor
      · rw [hstep, hres.1]
        simp [List.filter_cons, visB, hfi]
      · intro k
        rw [hstep, hres.2 k]
        have hS' : k ∈ (if containsL S idx then S else S ++ [idx]) ↔ k ∈ S ∨ k = idx := by
          cases hc : containsL S idx with
          | true =>
            have : idx ∈ S := (containsL_iff S idx).mp hc
            simp only [if_pos rfl]
            constructor
            · exact fun h => Or.inl h
            · rintro (h | rfl)
              · exact h
              · exact this
          | false => simp
        rw [hS']
        constructor
        · rintro ((h | rfl) | ⟨h1, h2, h3⟩)
          · exact Or.inl h
          · exact Or.inr ⟨le_refl _, by simp, by rw [hhid]; exact hfi⟩
          · exact Or.inr ⟨by omega, by simp; omega, h3⟩
        · rintro (h | ⟨h1, h2, h3⟩)
          · exact Or.inl (Or.inl h)
          · rcases Nat.eq_or_lt_of_le h1 with rfl | hlt
            · exact Or.inl (Or.inr rfl)
            · exact Or.inr ⟨by omega, by simp at h2; omega, h3⟩
    | false =>
      have hres := ih (idx + 1) S M hcorr'
      have hstep1 : (permClassify hide (fi :: rest) idx S M).1 =
          fi :: (permClassify hide rest (idx + 1) S M).1 := by
        simp [permClassify, hfi]
      have hstep2 : (permClassify hide (fi :: rest) idx S M).2 =
          (permClassify hide rest (idx + 1) S M).2 := by
        simp [permClassify, hfi]
      constructor
      · rw [hstep1, hres.1]
        simp [List.filter_cons, visB, hfi]
      · intro k
        rw [hstep2, hres.2 k]
        constructor
        · rintro (h | ⟨h1, h2, h3⟩)
          · exact Or.inl h
          · exact Or.inr ⟨by omega, by simp; omega, h3⟩
        · rintro (h | ⟨h1, h2, h3⟩)
          · exact Or.inl h
          · rcases Nat.eq_or_lt_of_le h1 with rfl | hlt
            · rw [hhid] at h3
              exact absurd h3 (by simp [hfi])
            · exact Or.inr ⟨by omega, by simp at h2; omega, h3⟩

end Sshtool

namespace Sshtool

theorem sliceFill_probe (infos : List FileInfo) (rOff : Nat) (h : rOff < infos.length) :
    sliceFill infos 1 rOff = ([infos[rOff]], none) := by
  have hle : ¬ infos.length ≤ rOff := by omega
  have hmin : min 1 (infos.length - rOff) = 1 := by omega
  have hdrop : infos.drop rOff = infos[rOff] :: infos.drop (rOff + 1) :=
    List.drop_eq_getElem_cons h
  simp only [sliceFill, if_neg hle, hmin]
  rw [hdrop]
  rfl

theorem sliceFill_eof (infos : List FileInfo) (bufLen rOff : Nat)
    (h : infos.length ≤ rOff) :
    sliceFill infos bufLen rOff = ([], some .eof) := by
  simp [sliceFill, h]

theorem sliceFill_batch (infos : List FileInfo) (bufLen rOff : Nat)
    (h : rOff < infos.length) :
    sliceFill infos bufLen rOff =
      (seg infos rOff (min (rOff + bufLen) infos.length),
       if infos.length - rOff < bufLen then some .eof else none) := by
  have hle : ¬ infos.length ≤ rOff := by omega
  have hmin : min bufLen (infos.length - rOff) = min (rOff + bufLen) infos.length - rOff := by
    omega
  simp only [sliceFill, if_neg hle, seg, hmin]
  have hiff : (min (rOff + bufLen) infos.length - rOff < bufLen) ↔
      (infos.length - rOff < bufLen) := by omega
  simp [hiff]

theorem permSkipLoop_spec (infos : List FileInfo) (hide : GoStr → Bool) (offset : Nat)
    (C : Nat) :
    ∀ (fuel i rOff : Nat) (S : List Nat) (M : Nat),
    PermInv infos hide S C →
    visCount infos hide rOff = i →
    i ≤ offset →
    rOff ≤ C →
    offset ≤ visCount infos hide C →
    C + 1 - rOff ≤ fuel →
    ∃ rOff' S' M',
      permSkipLoop (sliceFill infos) hide offset fuel i rOff S M =
        some (.done rOff' S' M') ∧
      PermInv infos hide S' C ∧
      visCount infos hide rOff' = offset ∧
      rOff ≤ rOff' ∧ rOff' ≤ C := by
  intro fuel
  induction fuel with
  | zero => intro i rOff S M _ _ _ h4 _ h6; omega
  | succ fuel ih =>
    intro i rOff S M hInv hvc hio h4 h5 h6
    by_cases hlt : i < offset
    · have hrC : rOff < C := by
        rcases Nat.lt_or_ge rOff C with h | h
        · exact h
        · exfalso
          have : C = rOff := by omega
          subst this
          omega
      have hrn : rOff < infos.length := by
        have := hInv.1; omega
      unfold permSkipLoop
      rw [if_pos hlt]
      by_cases hb1 : i < M ∧ ¬ containsL S rOff = true
      · rw [if_pos hb1]
        have hhid : hiddenAt infos hide rOff = false := by
          by_contra hcon
          have : hiddenAt infos hide rOff = true := by
            cases hht : hiddenAt infos hide rOff
            · exact absurd hht hcon
            · rfl
          have : rOff ∈ S := hInv.2.2 rOff hrC this
          exact hb1.2 ((containsL_iff S rOff).mpr this)
        have hvc' : visCount infos hide (rOff + 1) = i + 1 := by
          rw [visCount_succ infos hide rOff hrn, hhid, hvc]; simp
        obtain ⟨rOff', S', M', heq, hi2, hi3, hi4, hi5⟩ :=
          ih (i + 1) (rOff + 1) S M hInv hvc' (by omega) (by omega) h5 (by omega)
        exact ⟨rOff', S', M', heq, hi2, hi3, by omega, hi5⟩
      · rw [if_neg hb1]
        by_cases hb2 : M ≤ i
        · rw [if_pos hb2]
          rw [sliceFill_probe infos rOff hrn]
          simp only
          cases hh : hide infos[rOff].name with
          | true =>
            have hhid : hiddenAt infos hide rOff = true := by
              simp [hiddenAt, List.getElem?_eq_getElem hrn, hh]
            have hvc' : visCount infos hide (rOff + 1) = i := by
              rw [visCount_succ infos hide rOff hrn, hhid, hvc]; simp
            have hInv' : PermInv infos hide (S ++ [rOff]) C := by
              refine ⟨hInv.1, ?_, ?_⟩
              · intro k hk
                rcases List.mem_append.mp hk with hk | hk
                · exact hInv.2.1 k hk
                · simp at hk; subst hk; exact ⟨hrC, hhid⟩
              · intro k hk hkh
                exact List.mem_append.mpr (Or.inl (hInv.2.2 k hk hkh))
            obtain ⟨rOff', S', M', heq, hi2, hi3, hi4, hi5⟩ :=
              ih i (rOff + 1) (S ++ [rOff]) (M + 1) hInv' hvc' (by omega) (by omega)
                h5 (by omega)
            exact ⟨rOff', S', M', heq, hi2, hi3, by omega, hi5⟩
          | false =>
            have hhid : hiddenAt infos hide rOff = false := by
              simp [hiddenAt, List.getElem?_eq_getElem hrn, hh]
            have hvc' : visCount infos hide (rOff + 1) = i + 1 := by
              rw [visCount_succ infos hide rOff hrn, hhid, hvc]; simp
            obtain ⟨rOff', S', M', heq, hi2, hi3, hi4, hi5⟩ :=
              ih (i + 1) (rOff + 1) S (M + 1) hInv hvc' (by omega) (by omega) h5 (by omega)
            exact ⟨rOff', S', M', heq, hi2, hi3, by omega, hi5⟩
        · rw [if_neg hb2]
          have hmem : rOff ∈ S := by
            rcases Decidable.em (containsL S rOff = true) with hc | hc
            · exact (containsL_iff S rOff).mp hc
            · exact absurd ⟨by omega, hc⟩ hb1
          have hhid : hiddenAt infos hide rOff = true := (hInv.2.1 rOff hmem).2
          have hvc' : visCount infos hide (rOff + 1) = i := by
            rw [visCount_succ infos hide rOff hrn, hhid, hvc]; simp
          obtain ⟨rOff', S', M', heq, hi2, hi3, hi4, hi5⟩ :=
            ih i (rOff + 1) S M hInv hvc' (by omega) (by omega) h5 (by omega)
          exact ⟨rOff', S', M', heq, hi2, hi3, by omega, hi5⟩
    · have hieq : i = offset := by omega
      subst hieq
      exact ⟨rOff, S, M, by unfold permSkipLoop; rw [if_neg hlt], hInv, hvc, le_refl _, h4⟩

end Sshtool

namespace Sshtool

theorem seg_length (infos : List FileInfo) (a b : Nat) (h₁ : a ≤ b)
    (h₂ : b ≤ infos.length) : (seg infos a b).length = b - a := by
  simp [seg]
  omega

theorem permBatchLoop_spec (infos : List FileInfo) (hide : GoStr → Bool)
    (bufLen : Nat) (hbuf : 1 ≤ bufLen) :
    ∀ (fuel rOff : Nat) (S : List Nat) (M C : Nat),
    PermInv infos hide S C →
    rOff ≤ C →
    infos.length + 1 - rOff ≤ fuel →
    ∃ es err S' M' rEnd C',
      permBatchLoop (sliceFill infos) hide bufLen fuel rOff S M =
        some (es, err, S', M') ∧
      PermInv infos hide S' C' ∧ C ≤ C' ∧ rEnd ≤ C' ∧
      rOff ≤ rEnd ∧ rEnd ≤ infos.length ∧
      es = (seg infos rOff rEnd).filter (visB hide) ∧
      (err = some .eof ∨ err = none) ∧
      (err = some .eof → rEnd = infos.length) ∧
      (err = none → es ≠ []) := by
  intro fuel
  induction fuel with
  | zero =>
    intro rOff S M C hInv hrc h6
    have := hInv.1
    omega
  | succ fuel ih =>
    intro rOff S M C hInv hrc h6
    have hC1 : C ≤ infos.length := hInv.1
    have hrn : rOff ≤ infos.length := le_trans hrc hC1
    rcases Nat.eq_or_lt_of_le hrn with hreq | hrlt
    · -- rOff = infos.length: the inner lister returns (0, EOF) at once
      have heof : sliceFill infos bufLen rOff = ([], some .eof) :=
        sliceFill_eof infos bufLen rOff (by omega)
      refine ⟨[], some .eof, S, M, rOff, C, ?_, hInv, le_refl _, hrc, le_refl _,
        hrn, ?_, Or.inl rfl, fun _ => by omega, fun hc => Option.noConfusion hc⟩
      · unfold permBatchLoop
        rw [heof]
        simp [permClassify]
      · simp [seg]
    · -- rOff < infos.length: a real batch
      set n' := min (rOff + bufLen) infos.length with hn'
      have hbatch := sliceFill_batch infos bufLen rOff hrlt
      have hn'le : n' ≤ infos.length := by omega
      have hn'ge : rOff ≤ n' := by omega
      have hn'gt : rOff < n' := by omega
      have hraw : (seg infos rOff n').length = n' - rOff :=
        seg_length infos rOff n' hn'ge hn'le
      have hcorr : ∀ i, i < (seg infos rOff n').length →
          (seg infos rOff n')[i]? = infos[rOff + i]? := by
        intro i hi
        exact seg_getElem? infos rOff n' i (by omega)
      obtain ⟨es', S', M', hclEq⟩ :
          ∃ es' S' M', permClassify hide (seg infos rOff n') rOff S M = (es', S', M') :=
        ⟨_, _, _, rfl⟩
      have hcl := permClassify_spec infos hide (seg infos rOff n') rOff S M hcorr
      rw [hclEq] at hcl
      have hes' : es' = (seg infos rOff n').filter (visB hide) := hcl.1
      have hInv'' : PermInv infos hide S' (max C n') := by
        refine ⟨by omega, ?_, ?_⟩
        · intro k hk
          rcases (hcl.2 k).mp hk with hk | ⟨hk1, hk2, hk3⟩
          · have := hInv.2.1 k hk
            exact ⟨by omega, this.2⟩
          · rw [hraw] at hk2
            exact ⟨by omega, hk3⟩
        · intro k hk hh
          rcases Nat.lt_or_ge k C with hkC | hkC
          · exact (hcl.2 k).mpr (Or.inl (hInv.2.2 k hkC hh))
          · refine (hcl.2 k).mpr (Or.inr ⟨by omega, ?_, hh⟩)
            rw [hraw]
            omega
      rcases Nat.lt_or_ge (infos.length - rOff) bufLen with hend | hend
      · -- the batch reaches the end of the listing: EOF
        have hn'eq : n' = infos.length := by omega
        refine ⟨es', some .eof, S', M', n', max C n', ?_, hInv'', by omega, by omega,
          hn'ge, hn'le, hes', Or.inl rfl, fun _ => hn'eq,
          fun hc => Option.noConfusion hc⟩
        unfold permBatchLoop
        rw [hbatch]
        simp only [← hn', if_pos hend, hclEq]
        simp
      · -- the batch is full: no EOF yet
        have hn'eq : n' = rOff + bufLen := by omega
        by_cases hemp : es' = []
        · -- every entry of the batch is hidden: continue with the next batch
          obtain ⟨es₂, err₂, S₂, M₂, rEnd₂, C₂, heq₂, hI₂, hC₂, hrE₂, hr₂, hrn₂,
              hes₂, herr₂, heof₂, hne₂⟩ :=
            ih n' S' M' (max C n') hInv'' (by omega) (by omega)
          refine ⟨es₂, err₂, S₂, M₂, rEnd₂, C₂, ?_, hI₂, by omega, hrE₂,
            by omega, hrn₂, ?_, herr₂, heof₂, hne₂⟩
          · unfold permBatchLoop
            rw [hbatch]
            simp only [← hn', if_neg (by omega : ¬ infos.length - rOff < bufLen), hclEq]
            rw [hemp]
            simp only [List.isEmpty_nil, if_pos rfl]
            rw [hraw]
            have harg : rOff + (n' - rOff) = n' := by omega
            rw [harg]
            exact heq₂
          · rw [hes₂, seg_split infos rOff n' rEnd₂ hn'ge hr₂, List.filter_append]
            have hfe : (seg infos rOff n').filter (visB hide) = [] := by
              rw [← hes', hemp]
            rw [hfe]
            rfl
        · -- the batch has a visible entry: return it
          refine ⟨es', none, S', M', n', max C n', ?_, hInv'', by omega, by omega,
            hn'ge, hn'le, hes', Or.inr rfl, fun hc => Option.noConfusion hc,
            fun _ => hemp⟩
          unfold permBatchLoop
          rw [hbatch]
          simp only [← hn', if_neg (by omega : ¬ infos.length - rOff < bufLen), hclEq]
          have hie : es'.isEmpty = false := by
            cases hes : es' with
            | nil => exact absurd hes hemp
            | cons a l => rfl
          simp [hie]

end Sshtool

namespace Sshtool

theorem visCount_full (infos : List FileInfo) (hide : GoStr → Bool) :
    visCount infos hide infos.length = (infos.filter (visB hide)).length := by
  simp [visCount]

theorem permFill_spec (infos : List FileInfo) (hide : GoStr → Bool) (bufLen : Nat)
    (hbuf : 1 ≤ bufLen) (fuel offset : Nat) (S : List Nat) (M C : Nat)
    (hInv : PermInv infos hide S C)
    (hoff : offset ≤ visCount infos hide C)
    (hfuel : infos.length + 1 ≤ fuel) :
    ∃ es err S' M' C',
      permFill (sliceFill infos) hide fuel bufLen offset ⟨S, M⟩ =
        some ((es, err), ⟨S', M'⟩) ∧
      PermInv infos hide S' C' ∧ C ≤ C' ∧
      es = ((infos.filter (visB hide)).drop offset).take es.length ∧
      offset + es.length ≤ visCount infos hide C' ∧
      (err = some .eof ∨ err = none) ∧
      (err = some .eof → offset + es.length = (infos.filter (visB hide)).length) ∧
      (err = none → es ≠ []) := by
  have hC1 : C ≤ infos.length := hInv.1
  obtain ⟨rOff', S₁, M₁, heqSkip, hI₁, hvc₁, _, hrc₁⟩ :=
    permSkipLoop_spec infos hide offset C fuel 0 0 S M hInv rfl (Nat.zero_le _)
      (Nat.zero_le _) hoff (by omega)
  obtain ⟨es, err, S₂, M₂, rEnd, C₂, heqBatch, hI₂, hC₂, hrE₂, hr₂, hrn₂, hes,
      herr, heof, hne⟩ :=
    permBatchLoop_spec infos hide bufLen hbuf fuel rOff' S₁ M₁ C hI₁ hrc₁ (by omega)
  have hdropsplit : infos.drop rOff' = seg infos rOff' rEnd ++ infos.drop rEnd := by
    have h1 : (infos.drop rOff').drop (rEnd - rOff') = infos.drop rEnd := by
      rw [List.drop_drop]
      congr 1
      omega
    calc infos.drop rOff'
        = (infos.drop rOff').take (rEnd - rOff') ++ (infos.drop rOff').drop (rEnd - rOff') :=
          (List.take_append_drop _ _).symm
      _ = seg infos rOff' rEnd ++ infos.drop rEnd := by rw [h1]; rfl
  have hFdrop : (infos.filter (visB hide)).drop offset =
      es ++ (infos.filter (visB hide)).drop (visCount infos hide rEnd) := by
    rw [← hvc₁, ← filter_drop, hdropsplit, List.filter_append, ← hes, filter_drop]
  have heslen : visCount infos hide rEnd = offset + es.length := by
    rw [visCount_add_seg infos hide rOff' rEnd hr₂ hrn₂, hvc₁, hes]
  have hestake : es = ((infos.filter (visB hide)).drop offset).take es.length := by
    rw [hFdrop, List.take_left]
  refine ⟨es, err, S₂, M₂, C₂, ?_, hI₂, hC₂, hestake, ?_, herr, ?_, hne⟩
  · have hstep : permFill (sliceFill infos) hide fuel bufLen offset ⟨S, M⟩ =
        match permBatchLoop (sliceFill infos) hide bufLen fuel rOff' S₁ M₁ with
        | none => none
        | some (es, err, S', M') => some ((es, err), ⟨S', M'⟩) := by
      unfold permFill
      rw [heqSkip]
    rw [hstep, heqBatch]
  · rw [← heslen]
    exact visCount_mono infos hide hrE₂
  · intro he
    rw [← heslen, heof he, visCount_full]

/-- A caller that drives one filtered-listing iterator the way the claim
describes: starting at offset 0, each successive `fill` call passes the
cumulative number of entries already received, until EOF; the returned
entries are concatenated. -/
def permDrive (iter : ListFn) (hideFull : GoStr → Bool) (bufLen ffuel : Nat) :
    Nat → Nat → PermState → Option (List FileInfo)
  | 0, _, _ => none
  | dfuel + 1, offset, st =>
    match permFill iter hideFull ffuel bufLen offset st with
    | none => none
    | some ((es, some Err.eof), _) => some es
    | some ((es, none), st') =>
      match permDrive iter hideFull bufLen ffuel dfuel (offset + es.length) st' with
      | none => none
      | some rest => some (es ++ rest)
    | some ((_, some _), _) => none

theorem permDrive_spec (infos : List FileInfo) (hide : GoStr → Bool) (bufLen : Nat)
    (hbuf : 1 ≤ bufLen) :
    ∀ (dfuel offset : Nat) (S : List Nat) (M C : Nat),
    PermInv infos hide S C →
    offset ≤ visCount infos hide C →
    (infos.filter (visB hide)).length + 1 - offset ≤ dfuel →
    permDrive (sliceFill infos) hide bufLen (infos.length + 1) dfuel offset ⟨S, M⟩ =
      some ((infos.filter (visB hide)).drop offset) := by
  intro dfuel
  induction dfuel with
  | zero =>
    intro offset S M C hInv hoff hd
    exfalso
    have h1 : visCount infos hide C ≤ (infos.filter (visB hide)).length := by
      rw [← visCount_full]
      exact visCount_mono infos hide hInv.1
    omega
  | succ dfuel ih =>
    intro offset S M C hInv hoff hd
    obtain ⟨es, err, S', M', C', heq, hI', hC', hes, hoff', herr, heof, hne⟩ :=
      permFill_spec infos hide bufLen hbuf (infos.length + 1) offset S M C hInv hoff
        (le_refl _)
    rcases herr with heofEq | hnoneEq
    · subst heofEq
      have hlen : offset + es.length = (infos.filter (visB hide)).length := heof rfl
      have hfull : es = (infos.filter (visB hide)).drop offset := by
        rw [hes]
        have : es.length = ((infos.filter (visB hide)).drop offset).length := by
          simp
          omega
        rw [this, List.take_of_length_le (le_refl _)]
      have hstep : permDrive (sliceFill infos) hide bufLen (infos.length + 1)
          (dfuel + 1) offset ⟨S, M⟩ = some es := by
        unfold permDrive
        rw [heq]
      rw [hstep, hfull]
    · subst hnoneEq
      have hne' : es ≠ [] := hne rfl
      have hlen1 : 1 ≤ es.length := by
        cases hese : es with
        | nil => exact absurd hese hne'
        | cons a l => simp
      have hrec := ih (offset + es.length) S' M' C' hI' hoff' (by omega)
      have hstep : permDrive (sliceFill infos) hide bufLen (infos.length + 1)
          (dfuel + 1) offset ⟨S, M⟩ =
          match permDrive (sliceFill infos) hide bufLen (infos.length + 1) dfuel
              (offset + es.length) ⟨S', M'⟩ with
          | none => none
          | some rest => some (es ++ rest) := by
        conv_lhs => unfold permDrive
        rw [heq]
      rw [hstep, hrec]
      have hcomb : es ++ (infos.filter (visB hide)).drop (offset + es.length) =
          (infos.filter (visB hide)).drop offset := by
        have h1 : ((infos.filter (visB hide)).drop offset).drop es.length =
            (infos.filter (visB hide)).drop (offset + es.length) := by
          rw [List.drop_drop]
        rw [← h1, hes]
        have := List.take_append_drop es.length ((infos.filter (visB hide)).drop offset)
        conv_rhs => rw [← this]
        rw [← hes]
      show some (es ++ (infos.filter (visB hide)).drop (offset + es.length)) =
        some ((infos.filter (visB hide)).drop offset)
      rw [hcomb]

end Sshtool

namespace Sshtool

/-- **C3.** For a `PermWrapperFS` over a stable inner directory listing
(`sliceFill infos`, the closure `DirFs.List` returns), driving the filtered
listing iterator with caller-supplied offsets — each call's offset being the
cumulative number of entries already returned, starting at 0 — concatenates,
for every buffer size ≥ 1, to exactly the inner listing with the entries
whose full virtual path `join(path, name)` matches `shouldHide` removed,
ending in EOF.  The first conjunct ties the driven iterator to the one
`PermWrapperFS.List` actually returns. -/
theorem permWrapper_filtered_listing_complete {ρ ω : Type} (p : PermWrapperFS ρ ω)
    (path : GoStr) (infos : List FileInfo) (bufLen : Nat) (hbuf : 1 ≤ bufLen)
    (iterOk : p.Inner.List path = .ok (sliceFill infos))
    (hcr : p.CanRead path = true) (hsh : p.ShouldHide path = false)
    (hne : p.ShouldHideRegexp.length ≠ 0) :
    p.List path = .ok (.filtered (sliceFill infos)
      (fun name => p.ShouldHide (goJoin path name))) ∧
    permDrive (sliceFill infos) (fun name => p.ShouldHide (goJoin path name)) bufLen
        (infos.length + 1) (infos.length + 1) 0 ⟨[], 0⟩ =
      some (infos.filter (fun fi => ! p.ShouldHide (goJoin path fi.name))) := by
  constructor
  · simp [PermWrapperFS.List, hcr, hsh, iterOk, hne]
  · have hInv0 : PermInv infos (fun name => p.ShouldHide (goJoin path name)) [] 0 := by
      refine ⟨Nat.zero_le _, ?_, ?_⟩
      · intro k hk
        simp at hk
      · intro k hk
        omega
    have hd := permDrive_spec infos (fun name => p.ShouldHide (goJoin path name))
      bufLen hbuf (infos.length + 1) 0 [] 0 0 hInv0 (Nat.zero_le _)
      (by have := List.length_filter_le (visB (fun name => p.ShouldHide (goJoin path name))) infos; omega)
    simpa [visB] using hd

/-- Sample data for the C3 witness: three entries, the middle one hidden by a
policy matching `/secret`. -/
def c3Infos : List FileInfo :=
  [⟨"a".toList, 1, 0o644, 0, false⟩,
   ⟨"secret".toList, 2, 0o644, 0, false⟩,
   ⟨"b".toList, 3, 0o644, 0, false⟩]

/-- Sample wrapper for the C3 witness: reads allowed everywhere, `/secret`
hidden, over an inner filesystem whose listing is the stable `c3Infos`. -/
def c3Wrapper : PermWrapperFS Unit Unit :=
  { Inner := { EmptyFS Unit Unit with List := fun _ => .ok (sliceFill c3Infos) }
    CanReadRegexp := [fun _ => true]
    CanWriteRegexp := []
    ShouldHideRegexp := [fun s => s = "/secret".toList] }

/-- Witness for C3: driving the filtered listing of `c3Wrapper` at `/` with
buffer size 1 returns exactly the entries `a` and `b`. -/
theorem permWrapper_filtered_listing_complete_witness :
    permDrive (sliceFill c3Infos)
        (fun name => c3Wrapper.ShouldHide (goJoin "/".toList name)) 1 4 4 0 ⟨[], 0⟩ =
      some [⟨"a".toList, 1, 0o644, 0, false⟩, ⟨"b".toList, 3, 0o644, 0, false⟩] :=
  ((permWrapper_filtered_listing_complete c3Wrapper "/".toList c3Infos 1
      (by decide) rfl (by decide) (by decide) (by decide)).2).trans (by decide)

end Sshtool

namespace Sshtool

/-! ## A content-bearing world for CombinedFS (part_003)

`CombinedFS` composes arbitrary `SimplifiedFS` values.  The repository's
only content-bearing implementation, `DirFs`, stores its files on the host
filesystem; `EmptyFS` has no content.  To settle the cross-mount claims the
inner mounts are instantiated with two kinds of file stores over an explicit
world: `dir` mounts are `DirFs` translated against a host file map, and
`mem` mounts are in-memory stores.  The `mem` operations are `Modelled from
the spec:` the FileSystem contract of spec §4.2/§4.4 (read/write/stat/rm on
already-normalized paths; `write` creates on absence; `/` is a directory),
since src/ contains no content-bearing non-native mount.  Both stores are
flat maps from paths to byte lists: host directories and listings are not
modelled, so `stat` reports a directory only for the mount root `/` — which
makes the directory branch of the rename fallback unreachable in this model
(the claims considered restrict to regular files). -/

/-- A flat file store: path (or absolute host path) to byte content. -/
abbrev FileMap := List (GoStr × List Nat)

def fmLookup (m : FileMap) (p : GoStr) : Option (List Nat) :=
  (m.find? (fun kv => kv.1 = p)).map (fun kv => kv.2)

def fmSet : FileMap → GoStr → List Nat → FileMap
  | [], p, c => [(p, c)]
  | kv :: rest, p, c => if kv.1 = p then (p, c) :: rest else kv :: fmSet rest p c

def fmRemove (m : FileMap) (p : GoStr) : FileMap :=
  m.filter (fun kv => ¬ kv.1 = p)

/-- The world state: the host filesystem (used by `dir` mounts) and one
in-memory store per `mem` mount index. -/
structure World where
  host : FileMap
  mems : Nat → FileMap

/-- An inner mount of `CombinedFS` in this model: a native `DirFs` or an
in-memory store.  Equality of `mem` indices models Go interface identity of
distinct in-memory filesystem instances; equality of `dir` mounts is Go's
struct equality of `DirFs` values. -/
inductive MFS where
  | mem (idx : Nat)
  | dir (root : GoStr) (readonly : Bool)
  deriving DecidableEq, Repr

/-- Whether the Go type assertion `sfs.(OsDirFS)` succeeds. -/
def MFS.isOsDir : MFS → Bool
  | .mem _ => false
  | .dir _ _ => true

/-- A positional writer handle (`io.WriterAt`): the file it addresses. -/
inductive WHandle where
  | memH (idx : Nat) (p : GoStr)
  | hostH (abs : GoStr)
  deriving DecidableEq, Repr

def whGet (w : World) : WHandle → Option (List Nat)
  | .memH i p => fmLookup (w.mems i) p
  | .hostH a => fmLookup w.host a

def whSet (w : World) : WHandle → List Nat → World
  | .memH i p, c => { w with mems := fun j => if j = i then fmSet (w.mems i) p c else w.mems j }
  | .hostH a, c => { w with host := fmSet w.host a c }

def whRemove (w : World) : WHandle → World
  | .memH i p => { w with mems := fun j => if j = i then fmRemove (w.mems i) p else w.mems j }
  | .hostH a => { w with host := fmRemove w.host a }

/-- `WriteAt(data, off)` on a file: overwrite from `off`, zero-filling any
gap (POSIX write-at-offset semantics). -/
def overwrite (c : List Nat) (off : Nat) (data : List Nat) : List Nat :=
  c.take off ++ List.replicate (off - c.length) 0 ++ data ++ c.drop (off + data.length)

def whWrite (w : World) (h : WHandle) (data : List Nat) (off : Nat) : World :=
  whSet w h (overwrite ((whGet w h).getD []) off data)

/-- `ReadAt(buf, off)` on a file with content `c`: the bytes delivered and
the error (`io.EOF` when fewer than `len(buf)` bytes remain). -/
def readAtModel (c : List Nat) (bufLen off : Nat) : List Nat × Option Err :=
  if c.length ≤ off then ([], some .eof)
  else ((c.drop off).take bufLen, if c.length ≤ off + bufLen then some .eof else none)

/-- `io.Copy(&writerWrapper{writer, 0}, &readWrapper{reader, 0})`
(part_003 lines 262-308): both wrappers advance their owned offset by the
bytes moved, so the copy reads and writes chunks (32768 bytes, `io.Copy`'s
buffer) at the same cumulative offsets until the reader reports EOF. -/
def copyLoop (c : List Nat) : Nat → Nat → World → WHandle → World
  | _, 0, w, _ => w
  | off, fuel + 1, w, h =>
    let (chunk, er) := readAtModel c 32768 off
    let w' := if chunk.isEmpty then w else whWrite w h chunk off
    if er.isSome then w' else copyLoop c (off + chunk.length) fuel w' h

/-- `filepath.Base` (the final path element), used by `os.Stat`-style names. -/
def goBase (p : GoStr) : GoStr :=
  let t := (p.reverse.takeWhile (fun c => ¬ c = '/')).reverse
  if t = [] then ['/'] else t

/-- The `FileInfo` of a host or in-memory regular file. -/
def fileInfoOf (p : GoStr) (c : List Nat) : FileInfo :=
  { name := goBase p, size := c.length, mode := 0o644, modTime := 0, isDir := false }

/-- `Stat` of an inner mount.  `dir` follows `DirFs.Stat` (sftp/dir_fs.go
lines 89-101): the synthesized root stat for `/`, otherwise `IntoAbsPath`
and the host stat.  `mem` is modelled from the spec contract: `/` is a
directory, other paths are the stored files. -/
def mfsStat (m : MFS) (w : World) (p : GoStr) : Except Err FileInfo :=
  match m with
  | .mem i =>
    if p = ['/'] then .ok (topDirPath ['/'])
    else
      match fmLookup (w.mems i) p with
      | some c => .ok (fileInfoOf p c)
      | none => .error .notExist
  | .dir root ro =>
    if p = ['/'] then .ok { topDirPath (goBase root) with name := ['/'] }
    else
      match DirFs.IntoAbsPath ⟨root, ro⟩ p with
      | .error e => .error e
      | .ok abs =>
        match fmLookup w.host abs with
        | some c => .ok (fileInfoOf abs c)
        | none => .error .notExist

/-- `Read` of an inner mount: `DirFs.Read` is `IntoAbsPath` + `CanRead`
(always true) + `os.Open`; `mem` reads the stored file.  The positional
reader is the content captured at open time. -/
def mfsRead (m : MFS) (w : World) (p : GoStr) : Except Err (List Nat) :=
  match m with
  | .mem i =>
    match fmLookup (w.mems i) p with
    | some c => .ok c
    | none => .error .notExist
  | .dir root ro =>
    match DirFs.IntoAbsPath ⟨root, ro⟩ p with
    | .error e => .error e
    | .ok abs =>
      match fmLookup w.host abs with
      | some c => .ok c
      | none => .error .notExist

/-- `Write` of an inner mount: `DirFs.Write` is `IntoAbsPath` + `CanWrite`
(denied when read-only) + `os.OpenFile(..., O_WRONLY|O_CREATE, 0644)`,
which creates an empty file when absent and does not truncate; `mem`
follows the contract's "creates if absent".  Returns the positional writer
handle and the (possibly extended) world. -/
def mfsWrite (m : MFS) (w : World) (p : GoStr) : Except Err (WHandle × World) :=
  match m with
  | .mem i =>
    let h := WHandle.memH i p
    .ok (h, if (whGet w h).isSome then w else whSet w h [])
  | .dir root ro =>
    match DirFs.IntoAbsPath ⟨root, ro⟩ p with
    | .error e => .error e
    | .ok abs =>
      if ro then .error .forbidden
      else
        let h := WHandle.hostH abs
        .ok (h, if (whGet w h).isSome then w else whSet w h [])

/-- `Rm` of an inner mount: `DirFs.Rm` (sftp/dir_fs.go lines 232-248) is
`IntoAbsPath` + `CanWrite` + `os.Stat` + the is-a-directory rejection +
`os.Remove` (host entries are always regular files in this model); `mem`
rejects the root directory and removes the stored file. -/
def mfsRm (m : MFS) (w : World) (p : GoStr) : Except Err World :=
  match m with
  | .mem i =>
    if p = ['/'] then .error .isDirectory
    else
      match fmLookup (w.mems i) p with
      | some _ => .ok (whRemove w (.memH i p))
      | none => .error .notExist
  | .dir root ro =>
    match DirFs.IntoAbsPath ⟨root, ro⟩ p with
    | .error e => .error e
    | .ok abs =>
      if ro then .error .forbidden
      else
        match fmLookup w.host abs with
        | some _ => .ok (whRemove w (.hostH abs))
        | none => .error .notExist

/-- `Rename` within one inner mount: `DirFs.Rename` (lines 199-212) is both
`IntoAbsPath`s + `CanWrite` + `os.Rename`; `mem` moves the stored file. -/
def mfsRename (m : MFS) (w : World) (src dst : GoStr) : Except Err World :=
  match m with
  | .mem i =>
    match fmLookup (w.mems i) src with
    | some c => .ok (whSet (whRemove w (.memH i src)) (.memH i dst) c)
    | none => .error .notExist
  | .dir root ro =>
    match DirFs.IntoAbsPath ⟨root, ro⟩ src with
    | .error e => .error e
    | .ok absSrc =>
      match DirFs.IntoAbsPath ⟨root, ro⟩ dst with
      | .error e => .error e
      | .ok absDst =>
        if ro then .error .forbidden
        else
          match fmLookup w.host absSrc with
          | some c => .ok (whSet (whRemove w (.hostH absSrc)) (.hostH absDst) c)
          | none => .error .notExist

/-- `Mkdir`/`Rmdir` of an inner mount.  Directories are implicit in the flat
stores, so after the `DirFs` path/permission guards these are no-ops; they
are only reached by code paths outside the claims considered. -/
def mfsMkdir (m : MFS) (w : World) (p : GoStr) : Except Err World :=
  match m with
  | .mem _ => .ok w
  | .dir root ro =>
    match DirFs.IntoAbsPath ⟨root, ro⟩ p with
    | .error e => .error e
    | .ok _ => if ro then .error .forbidden else .ok w

/-- See `mfsMkdir`. -/
def mfsRmdir (m : MFS) (w : World) (p : GoStr) : Except Err World :=
  match m with
  | .mem _ => .ok w
  | .dir root ro =>
    match DirFs.IntoAbsPath ⟨root, ro⟩ p with
    | .error e => .error e
    | .ok _ => if ro then .error .forbidden else .ok w

/-- `Link`/`Symlink` within one inner mount, after the `DirFs` guards; the
flat `mem` store does not model links.  Only the guards are exercised by
the claims considered. -/
def mfsLink (m : MFS) (w : World) (src dst : GoStr) : Except Err World :=
  match m with
  | .mem _ => .error .ioErr
  | .dir root ro =>
    match DirFs.IntoAbsPath ⟨root, ro⟩ src with
    | .error e => .error e
    | .ok absSrc =>
      match DirFs.IntoAbsPath ⟨root, ro⟩ dst with
      | .error e => .error e
      | .ok absDst =>
        if ro then .error .forbidden
        else
          match fmLookup w.host absSrc with
          | some c => .ok (whSet w (.hostH absDst) c)
          | none => .error .notExist

end Sshtool

namespace Sshtool

/-- See `mfsLink`; `os.Symlink` on the host is approximated the same way, the
claims only exercise the preceding guards. -/
def mfsSymlink (m : MFS) (w : World) (src dst : GoStr) : Except Err World :=
  match m with
  | .mem _ => .error .ioErr
  | .dir root ro =>
    match DirFs.IntoAbsPath ⟨root, ro⟩ src with
    | .error e => .error e
    | .ok absSrc =>
      match DirFs.IntoAbsPath ⟨root, ro⟩ dst with
      | .error e => .error e
      | .ok absDst =>
        if ro then .error .forbidden
        else
          match fmLookup w.host absSrc with
          | some c => .ok (whSet w (.hostH absDst) c)
          | none => .error .notExist

/-- Directory listings of the inner mounts.  Host directories are not
modelled (the flat stores make `mfsStat` report a directory only for `/`),
so the directory branch of the rename fallback, which is the only consumer,
is unreachable for the claims considered; the listing reports an I/O
error. -/
def mfsListEntries (_ : MFS) (_ : World) (_ : GoStr) : Except Err (List FileInfo) :=
  .error .ioErr

/-- `renameFileFallback` (part_003 lines 292-308): open a positional reader
on the source and a positional writer on the destination, `io.Copy` through
the offset-advancing wrappers, then remove the source file. -/
def renameFileFallback (srcSfs dstSfs : MFS) (srcPath dstPath : GoStr)
    (w : World) : Except Err World :=
  match mfsRead srcSfs w srcPath with
  | .error e => .error e
  | .ok c =>
    match mfsWrite dstSfs w dstPath with
    | .error e => .error e
    | .ok (h, w₁) => mfsRm srcSfs (copyLoop c 0 (c.length + 1) w₁ h) srcPath

/-- The per-entry loop of `renameDirectoryFallback` (part_003 lines
323-349): recurse into directories, move files, in listing order.  The
batched reads (buffer 5) of the source's stable listing are equivalent to
walking the full entry list in order. -/
def renameEntriesLoop (recurse : GoStr → GoStr → World → Except Err World)
    (srcSfs dstSfs : MFS) (srcPath dstPath : GoStr) :
    List FileInfo → World → Except Err World
  | [], w => .ok w
  | element :: rest, w =>
    match (if element.isDir then recurse (goJoin srcPath element.name)
             (goJoin dstPath element.name) w
           else renameFileFallback srcSfs dstSfs (goJoin srcPath element.name)
             (goJoin dstPath element.name) w) with
    | .error e => .error e
    | .ok w' => renameEntriesLoop recurse srcSfs dstSfs srcPath dstPath rest w'

/-- `renameDirectoryFallback` (part_003 lines 310-352): create the
destination directory, copy the listed entries recursively, then remove the
source directory.  The tree recursion is rendered structural with fuel;
within this model the function is unreachable (see `mfsListEntries`). -/
def renameDirectoryFallback : Nat → MFS → MFS → GoStr → GoStr → World → Except Err World
  | 0, _, _, _, _, _ => .error .ioErr
  | fuel + 1, srcSfs, dstSfs, srcPath, dstPath, w =>
    match mfsMkdir dstSfs w dstPath with
    | .error e => .error e
    | .ok w₁ =>
      match mfsListEntries srcSfs w₁ srcPath with
      | .error e => .error e
      | .ok entries =>
        match renameEntriesLoop (renameDirectoryFallback fuel srcSfs dstSfs)
            srcSfs dstSfs srcPath dstPath entries w₁ with
        | .error e => .error e
        | .ok w₂ => mfsRmdir srcSfs w₂ srcPath

/-- `CombinedFS` (part_003 lines 16-21): named mounts under a virtual root.
The Go map is modelled as an association list; `Extract` iterates it in
list order (Go map iteration order is unspecified — for the claims the
chosen entry is characterized through `Extract`'s result). -/
structure CombinedFS where
  Dirs : List (GoStr × MFS)

/-- The loop of `CombinedFS.Extract` (part_003 lines 30-44): find a mount
name that prefixes the path at a `/` boundary and return the sub-path. -/
def extractLoop : List (GoStr × MFS) → GoStr → Except Err (GoStr × MFS)
  | [], _ => .error .notExist
  | (name, sfs) :: rest, path =>
    if name.length ≤ path.length ∧ path.take name.length = name then
      let subpath := path.drop name.length
      let subpath := if subpath = [] then ['/'] else subpath
      if subpath.head? = some '/' then .ok (subpath, sfs)
      else extractLoop rest path
    else extractLoop rest path

/-- `CombinedFS.Extract` (part_003 lines 25-46).  The unguarded `path[0]`
read panics on the empty string (modelled as `Err.panics`). -/
def CombinedFS.Extract (c : CombinedFS) (path : GoStr) : Except Err (GoStr × MFS) :=
  match path with
  | [] => .error .panics
  | ch :: _ => extractLoop c.Dirs (if ch = '/' then path.drop 1 else path)

/-- Go `sort.Strings`: bytewise-lexicographic comparison. -/
def strLe : GoStr → GoStr → Bool
  | [], _ => true
  | _ :: _, [] => false
  | a :: as, b :: bs => if a = b then strLe as bs else decide (a.toNat < b.toNat)

def insertSorted (x : GoStr) : List GoStr → List GoStr
  | [] => [x]
  | y :: ys => if strLe x y then x :: y :: ys else y :: insertSorted x ys

def sortStrings (l : List GoStr) : List GoStr := l.foldr insertSorted []

/-- Go map indexing `c.Dirs[dirname]` over the association list. -/
def assocFind (dirs : List (GoStr × MFS)) (name : GoStr) : Option MFS :=
  (dirs.find? (fun kv => kv.1 = name)).map (fun kv => kv.2)

/-- The entry-building loop of the root lister (part_003 lines 106-118):
for each of `count` positions from `pos`, stat the mount's root and rename
the `FileInfo` to the mount name; a stat error aborts the whole call
(`return 0, err`). -/
def rootFillEntries (dirs : List (GoStr × MFS)) (w : World) (topDirs : List GoStr) :
    Nat → Nat → Except Err (List FileInfo)
  | _, 0 => .ok []
  | pos, count + 1 =>
    match assocFind dirs (topDirs.getD pos []) with
    | none => .error .panics
    | some sfs =>
      match mfsStat sfs w ['/'] with
      | .error e => .error e
      | .ok stat =>
        match rootFillEntries dirs w topDirs (pos + 1) count with
        | .error e => .error e
        | .ok rest => .ok ({ stat with name := topDirs.getD pos [] } :: rest)

/-- The closure `CombinedFS.List` returns for the root path `/` (part_003
lines 87-124), with its exact `remaining` computation
`min(int64(len(topDirs))-offset, int64(len(fs))-offset)` on Go `int64`s
(hence `Int`).  Result: the returned count `int(remaining)`, the entries
written, and the error.  (A negative caller offset would panic in Go at
`topDirs[int(offset)+i]`; the claims drive only cumulative offsets ≥ 0,
where `offset.toNat` is exact.) -/
def combinedRootFill (c : CombinedFS) (w : World) (bufLen : Nat) (offset : Int) :
    Int × List FileInfo × Option Err :=
  let topDirs := sortStrings (c.Dirs.map Prod.fst)
  if offset ≥ (topDirs.length : Int) then (0, [], some .eof)
  else
    let remaining : Int := min ((topDirs.length : Int) - offset) ((bufLen : Int) - offset)
    match rootFillEntries c.Dirs w topDirs offset.toNat remaining.toNat with
    | .error e => (0, [], some e)
    | .ok entries =>
      if offset + remaining = (topDirs.length : Int) then (remaining, entries, some .eof)
      else (remaining, entries, none)

/-- `CombinedFS.Rename` (part_003 lines 354-416): the root guards, the
trivial `src == dst` success, extraction, the mount-root guard, same-mount
delegation, the native-native direct host rename, and otherwise the
stat-guarded copy-and-delete fallback. -/
def CombinedFS.Rename (c : CombinedFS) (w : World) (src dst : GoStr) :
    Except Err World :=
  if src = ['/'] ∨ dst = ['/'] then .error .permission
  else if src = dst then .ok w
  else
    match c.Extract src with
    | .error e => .error e
    | .ok (subSrc, srcSfs) =>
      match c.Extract dst with
      | .error e => .error e
      | .ok (subDst, dstSfs) =>
        if subSrc = ['/'] ∨ subDst = ['/'] then .error .invalid
        else if srcSfs = dstSfs then mfsRename srcSfs w subSrc subDst
        else
          match srcSfs, dstSfs with
          | .dir r1 ro1, .dir r2 ro2 =>
            match DirFs.IntoAbsPath ⟨r1, ro1⟩ subSrc with
            | .error e => .error e
            | .ok absSrc =>
              match DirFs.IntoAbsPath ⟨r2, ro2⟩ subDst with
              | .error e => .error e
              | .ok absDst =>
                if ro1 ∨ ro2 then .error .forbidden
                else
                  match fmLookup w.host absSrc with
                  | some cnt =>
                    .ok (whSet (whRemove w (.hostH absSrc)) (.hostH absDst) cnt)
                  | none => .error .notExist
          | srcSfs', dstSfs' =>
            match mfsStat srcSfs' w subSrc with
            | .error e => .error e
            | .ok srcStat =>
              match mfsStat dstSfs' w subDst with
              | .ok _ => .error .targetExists
              | .error e =>
                if e = .notExist then
                  if srcStat.isDir then
                    renameDirectoryFallback 32 srcSfs' dstSfs' subSrc subDst w
                  else renameFileFallback srcSfs' dstSfs' subSrc subDst w
                else .error e

/-- `CombinedFS.Rmdir` (part_003 lines 418-430). -/
def CombinedFS.Rmdir (c : CombinedFS) (w : World) (path : GoStr) : Except Err World :=
  if path = ['/'] then .error .permission
  else
    match c.Extract path with
    | .error e => .error e
    | .ok (subpath, sfs) =>
      if subpath = ['/'] then .error .permission else mfsRmdir sfs w subpath

/-- `CombinedFS.Rm` (part_003 lines 432-444). -/
def CombinedFS.Rm (c : CombinedFS) (w : World) (path : GoStr) : Except Err World :=
  if path = ['/'] then .error .permission
  else
    match c.Extract path with
    | .error e => .error e
    | .ok (subpath, sfs) =>
      if subpath = ['/'] then .error .permission else mfsRm sfs w subpath

/-- `CombinedFS.Mkdir` (part_003 lines 446-458). -/
def CombinedFS.Mkdir (c : CombinedFS) (w : World) (path : GoStr) : Except Err World :=
  if path = ['/'] then .error .permission
  else
    match c.Extract path with
    | .error e => .error e
    | .ok (subpath, sfs) =>
      if subpath = ['/'] then .error .permission else mfsMkdir sfs w subpath

/-- `CombinedFS.Link` (part_003 lines 460-499).  Note the source computes
`absDst` with `srcDirFs.IntoAbsPath(subDst)` — the source mount's root —
which is translated as-is. -/
def CombinedFS.Link (c : CombinedFS) (w : World) (src dst : GoStr) : Except Err World :=
  if src = ['/'] ∨ dst = ['/'] then .error .permission
  else
    match c.Extract src with
    | .error e => .error e
    | .ok (subSrc, srcSfs) =>
      match c.Extract dst with
      | .error e => .error e
      | .ok (subDst, dstSfs) =>
        if subSrc = ['/'] ∨ subDst = ['/'] then .error .permission
        else if srcSfs = dstSfs then mfsLink srcSfs w subSrc subDst
        else
          match srcSfs, dstSfs with
          | .dir r1 ro1, .dir _ ro2 =>
            match DirFs.IntoAbsPath ⟨r1, ro1⟩ subSrc with
            | .error e => .error e
            | .ok absSrc =>
              match DirFs.IntoAbsPath ⟨r1, ro1⟩ subDst with
              | .error e => .error e
              | .ok absDst =>
                if ro1 ∨ ro2 then .error .forbidden
                else
                  match fmLookup w.host absSrc with
                  | some cnt => .ok (whSet w (.hostH absDst) cnt)
                  | none => .error .notExist
          | _, _ => .error .cannotLink

/-- `CombinedFS.Symlink` (part_003 lines 501-540); same structure (and the
same source-root conversion of `subDst`) as `Link`. -/
def CombinedFS.Symlink (c : CombinedFS) (w : World) (src dst : GoStr) : Except Err World :=
  if src = ['/'] ∨ dst = ['/'] then .error .permission
  else
    match c.Extract src with
    | .error e => .error e
    | .ok (subSrc, srcSfs) =>
      match c.Extract dst with
      | .error e => .error e
      | .ok (subDst, dstSfs) =>
        if subSrc = ['/'] ∨ subDst = ['/'] then .error .permission
        else if srcSfs = dstSfs then mfsSymlink srcSfs w subSrc subDst
        else
          match srcSfs, dstSfs with
          | .dir r1 ro1, .dir _ ro2 =>
            match DirFs.IntoAbsPath ⟨r1, ro1⟩ subSrc with
            | .error e => .error e
            | .ok absSrc =>
              match DirFs.IntoAbsPath ⟨r1, ro1⟩ subDst with
              | .error e => .error e
              | .ok absDst =>
                if ro1 ∨ ro2 then .error .forbidden
                else
                  match fmLookup w.host absSrc with
                  | some cnt => .ok (whSet w (.hostH absDst) cnt)
                  | none => .error .notExist
          | _, _ => .error .cannotLink

end Sshtool

namespace Sshtool

/-! ## Claims C4, C7 and C8 -/

/-- Concrete instance for C4: two in-memory mounts named `a` and `b`. -/
def c4Combined : CombinedFS := ⟨[("a".toList, .mem 0), ("b".toList, .mem 1)]⟩

/-- An empty world for the concrete CombinedFS instances. -/
def emptyWorld : World := ⟨[], fun _ => []⟩

/-- **C4 (evaluation at the failing input).**  The root lister of a
`CombinedFS` with two mounts, driven with cumulative offsets: the first call
with buffer size 1 delivers the `a` entry (the inner root stat renamed to
the mount name) without EOF, but the second call at offset 1 computes
`remaining = min(len(topDirs)-offset, len(buf)-offset) = min(1, 0) = 0` and
returns `(0, nil)` — no entry and no EOF, forever.  Only buffers that hold
all the mount names at offset 0 (third conjunct) deliver the k entries with
EOF, contradicting the claim's "for every buffer size ≥ 1". -/
theorem combinedFS_rootList_buffer_bug :
    combinedRootFill c4Combined emptyWorld 1 0 =
      (1, [{ topDirPath ['/'] with name := "a".toList }], none) ∧
    combinedRootFill c4Combined emptyWorld 1 1 = (0, [], none) ∧
    combinedRootFill c4Combined emptyWorld 2 0 =
      (2, [{ topDirPath ['/'] with name := "a".toList },
           { topDirPath ['/'] with name := "b".toList }], some .eof) := by
  refine ⟨rfl, rfl, rfl⟩

/-- Concrete instance for C7: one mount named `docs`. -/
def c7Combined : CombinedFS := ⟨[("docs".toList, .mem 0)]⟩

/-- **C7 (counterexample).**  `Rename("/docs", "/docs")` has both arguments
resolving to the mount's own root, yet the `src == dst` early return fires
before extraction and the call succeeds with `nil` instead of failing with
Forbidden/Invalid as the claim states. -/
theorem combinedFS_rename_selfMountRoot_succeeds :
    CombinedFS.Rename c7Combined emptyWorld "/docs".toList "/docs".toList =
      .ok emptyWorld := rfl

/-- **C7 (amended).**  In virtual-root mode, `mkdir`/`rm`/`rmdir` fail with
`os.ErrPermission` on `/` and on any path resolving to a mount's own root;
`rename`/`link`/`symlink` fail with `os.ErrPermission` when either argument
is `/`; `link`/`symlink` fail with `os.ErrPermission` and `rename` with
`os.ErrInvalid` when either argument resolves to a mount root — except that
`rename` with `src = dst ≠ "/"` returns success immediately (before
extraction) without modifying anything. -/
theorem combinedFS_root_immutable_amended (c : CombinedFS) (w : World)
    (path src dst subSrc subDst : GoStr) (sfs sfsS sfsD : MFS) :
    (c.Rmdir w ['/'] = .error .permission ∧
     c.Rm w ['/'] = .error .permission ∧
     c.Mkdir w ['/'] = .error .permission) ∧
    (c.Extract path = .ok (['/'], sfs) →
      c.Rmdir w path = .error .permission ∧
      c.Rm w path = .error .permission ∧
      c.Mkdir w path = .error .permission) ∧
    (src = ['/'] ∨ dst = ['/'] →
      c.Rename w src dst = .error .permission ∧
      c.Link w src dst = .error .permission ∧
      c.Symlink w src dst = .error .permission) ∧
    (c.Extract src = .ok (subSrc, sfsS) → c.Extract dst = .ok (subDst, sfsD) →
      subSrc = ['/'] ∨ subDst = ['/'] →
      c.Link w src dst = .error .permission ∧
      c.Symlink w src dst = .error .permission ∧
      (src ≠ ['/'] → dst ≠ ['/'] → src ≠ dst → c.Rename w src dst = .error .invalid)) ∧
    (src = dst → src ≠ ['/'] → c.Rename w src dst = .ok w) := by
  refine ⟨⟨?_, ?_, ?_⟩, fun hex => ⟨?_, ?_, ?_⟩, fun hor => ⟨?_, ?_, ?_⟩,
    fun hexs hexd hsub => ⟨?_, ?_, fun h1 h2 h3 => ?_⟩, fun heq hne => ?_⟩
  · simp [CombinedFS.Rmdir]
  · simp [CombinedFS.Rm]
  · simp [CombinedFS.Mkdir]
  · by_cases hp : path = ['/']
    · simp [CombinedFS.Rmdir, hp]
    · simp [CombinedFS.Rmdir, hp, hex]
  · by_cases hp : path = ['/']
    · simp [CombinedFS.Rm, hp]
    · simp [CombinedFS.Rm, hp, hex]
  · by_cases hp : path = ['/']
    · simp [CombinedFS.Mkdir, hp]
    · simp [CombinedFS.Mkdir, hp, hex]
  · rcases hor with h | h <;> simp [CombinedFS.Rename, h]
  · rcases hor with h | h <;> simp [CombinedFS.Link, h]
  · rcases hor with h | h <;> simp [CombinedFS.Symlink, h]
  · by_cases hsd : src = ['/'] ∨ dst = ['/']
    · rcases hsd with h | h <;> simp [CombinedFS.Link, h]
    · simp [CombinedFS.Link, hsd, hexs, hexd, hsub]
  · by_cases hsd : src = ['/'] ∨ dst = ['/']
    · rcases hsd with h | h <;> simp [CombinedFS.Symlink, h]
    · simp [CombinedFS.Symlink, hsd, hexs, hexd, hsub]
  · have hsd : ¬ (src = ['/'] ∨ dst = ['/']) := by tauto
    simp [CombinedFS.Rename, hsd, h3, hexs, hexd, hsub]
  · subst heq
    have hsd : ¬ (src = ['/'] ∨ src = ['/']) := by tauto
    simp [CombinedFS.Rename, hsd]
    exact hne

/-- Witness for C7's amended theorem: the mount-root mkdir case and the
virtual-root rename case at concrete inputs. -/
theorem combinedFS_root_immutable_amended_witness :
    CombinedFS.Mkdir c7Combined emptyWorld "/docs".toList = .error .permission ∧
    CombinedFS.Rename c7Combined emptyWorld "/".toList "/x".toList = .error .permission :=
  ⟨((combinedFS_root_immutable_amended c7Combined emptyWorld "/docs".toList [] []
      [] [] (.mem 0) (.mem 0) (.mem 0)).2.1 (by rfl)).2.2,
   ((combinedFS_root_immutable_amended c7Combined emptyWorld [] "/".toList
      "/x".toList [] [] (.mem 0) (.mem 0) (.mem 0)).2.2.1 (Or.inl rfl)).1⟩

/-! ## Claim C8: the WebDAV open-flag dispatch (part_001 lines 35-67) -/

/-- `os.O_RDONLY` (Unix): zero, which makes `flag&O_RDONLY == O_RDONLY`
vacuously true. -/
def O_RDONLY : Nat := 0

/-- `os.O_WRONLY` (Unix). -/
def O_WRONLY : Nat := 1

/-- `os.O_RDWR` (Unix). -/
def O_RDWR : Nat := 2

/-- `os.O_CREATE` (Unix `O_CREAT`, 0100 octal). -/
def O_CREATE : Nat := 64

/-- The three handle variants of the WebDAV adapter
(`webdavReadWriteFile`, `webdavWriteFile`, `webdavReadFile`). -/
inductive WebdavHandleKind where
  | readWrite
  | writeOnly
  | readOnly
  deriving DecidableEq, Repr

/-- The variant `fileSystemWrapper.OpenFile` constructs for given open
flags (part_001 lines 36-60), with Go's `&&`-over-`||` precedence:
`((O_CREATE || O_WRONLY) && O_RDONLY) || O_RDWR` first, then
`O_CREATE || O_WRONLY`. -/
def openFileVariant (flag : Nat) : WebdavHandleKind :=
  if ((flag &&& O_CREATE = O_CREATE ∨ flag &&& O_WRONLY = O_WRONLY) ∧
        flag &&& O_RDONLY = O_RDONLY) ∨ flag &&& O_RDWR = O_RDWR then
    .readWrite
  else if flag &&& O_CREATE = O_CREATE ∨ flag &&& O_WRONLY = O_WRONLY then
    .writeOnly
  else .readOnly

/-- **C8 (evaluation at the failing input).**  `os.O_RDONLY` is 0, so the
`flag&os.O_RDONLY == os.O_RDONLY` conjunct is vacuously true: write-only
flags (`O_WRONLY`, with or without `O_CREATE`) construct the read-write
variant, and no flag value ever constructs the write-only variant
`webdavWriteFile` — its construction site is dead code. -/
theorem webdav_writeOnly_variant_unreachable :
    openFileVariant O_WRONLY = .readWrite ∧
    openFileVariant (O_WRONLY + O_CREATE) = .readWrite ∧
    ∀ flag, openFileVariant flag ≠ .writeOnly := by
  refine ⟨rfl, rfl, fun flag => ?_⟩
  unfold openFileVariant
  by_cases h1 : ((flag &&& O_CREATE = O_CREATE ∨ flag &&& O_WRONLY = O_WRONLY) ∧
      flag &&& O_RDONLY = O_RDONLY) ∨ flag &&& O_RDWR = O_RDWR
  · rw [if_pos h1]
    intro hc
    cases hc
  · rw [if_neg h1]
    have h2 : ¬ (flag &&& O_CREATE = O_CREATE ∨ flag &&& O_WRONLY = O_WRONLY) := by
      intro h
      exact h1 (Or.inl ⟨h, Nat.and_zero flag⟩)
    rw [if_neg h2]
    intro hc
    cases hc

end Sshtool

namespace Sshtool

/-! ## Store and copy lemmas for claim C6 -/

theorem fmLookup_fmSet_self (m : FileMap) (p : GoStr) (c : List Nat) :
    fmLookup (fmSet m p c) p = some c := by
  induction m with
  | nil => simp [fmSet, fmLookup, List.find?]
  | cons kv rest ih =>
    by_cases hk : kv.1 = p
    · simp [fmSet, hk, fmLookup, List.find?]
    · simp only [fmSet, if_neg hk]
      simp only [fmLookup, List.find?] at ih ⊢
      have hd : (decide (kv.1 = p)) = false := by simpa using hk
      rw [hd]
      exact ih

theorem fmLookup_fmRemove_self (m : FileMap) (p : GoStr) :
    fmLookup (fmRemove m p) p = none := by
  induction m with
  | nil => simp [fmRemove, fmLookup, List.find?]
  | cons kv rest ih =>
    by_cases hk : kv.1 = p
    · simpa [fmRemove, List.filter_cons, hk] using ih
    · simp only [fmRemove, List.filter_cons] at ih ⊢
      have hd1 : (decide ¬ kv.1 = p) = true := by simpa using hk
      rw [hd1]
      simp only [fmLookup, List.find?]
      have hd : (decide (kv.1 = p)) = false := by simpa using hk
      rw [hd]
      exact ih

theorem whGet_whSet_self (w : World) (h : WHandle) (c : List Nat) :
    whGet (whSet w h c) h = some c := by
  cases h with
  | memH i p => simp [whGet, whSet, fmLookup_fmSet_self]
  | hostH a => simp [whGet, whSet, fmLookup_fmSet_self]

theorem overwrite_at_end (d : List Nat) (data : List Nat) :
    overwrite d d.length data = d ++ data := by
  simp [overwrite, List.take_of_length_le (le_refl d.length),
    List.drop_eq_nil_of_le (by omega : d.length ≤ d.length + data.length)]

theorem copyLoop_get (c : List Nat) :
    ∀ (fuel off : Nat) (w : World) (h : WHandle),
    whGet w h = some (c.take off) →
    c.length + 1 - off ≤ fuel →
    whGet (copyLoop c off fuel w h) h = some c := by
  intro fuel
  induction fuel with
  | zero =>
    intro off w h hg hf
    rw [List.take_of_length_le (by omega)] at hg
    simpa [copyLoop] using hg
  | succ fuel ih =>
    intro off w h hg hf
    by_cases hend : c.length ≤ off
    · have hra : readAtModel c 32768 off = ([], some .eof) := by
        simp only [readAtModel, if_pos hend]
      rw [List.take_of_length_le hend] at hg
      unfold copyLoop
      rw [hra]
      show whGet w h = some c
      exact hg
    · have hlt : off < c.length := by omega
      have hlen_take : (c.take off).length = off := by
        simp
        omega
      obtain ⟨b, bs, hch⟩ : ∃ b bs, (c.drop off).take 32768 = b :: bs := by
        cases hc : (c.drop off).take 32768 with
        | nil =>
          exfalso
          have hlc := congrArg List.length hc
          simp at hlc
          omega
        | cons b bs => exact ⟨b, bs, rfl⟩
      have hov : overwrite (c.take off) off ((c.drop off).take 32768) =
          c.take off ++ (c.drop off).take 32768 := by
        have h2 := overwrite_at_end (c.take off) ((c.drop off).take 32768)
        rwa [hlen_take] at h2
      have hwget : whGet (whWrite w h (b :: bs) off) h =
          some (c.take (off + 32768)) := by
        rw [← hch]
        unfold whWrite
        rw [hg]
        simp only [Option.getD_some]
        rw [hov, ← List.take_add]
        exact whGet_whSet_self _ _ _
      by_cases hbig : c.length ≤ off + 32768
      · have hra : readAtModel c 32768 off = (b :: bs, some .eof) := by
          rw [← hch]
          simp only [readAtModel, if_neg hend]
          rw [if_pos hbig]
        unfold copyLoop
        rw [hra]
        show whGet (whWrite w h (b :: bs) off) h = some c
        rw [hwget, List.take_of_length_le (by omega)]
      · have hra : readAtModel c 32768 off = (b :: bs, none) := by
          rw [← hch]
          simp only [readAtModel, if_neg hend]
          rw [if_neg hbig]
        have hclen : (b :: bs).length = 32768 := by
          rw [← hch]
          simp
          omega
        unfold copyLoop
        rw [hra]
        show whGet (copyLoop c (off + (b :: bs).length) fuel
          (whWrite w h (b :: bs) off) h) h = some c
        rw [hclen]
        exact ih (off + 32768) _ h hwget (by omega)

theorem whWrite_mems_memH_ne (w : World) (i : Nat) (p : GoStr) (data : List Nat)
    (off : Nat) (j : Nat) (hji : ¬ j = i) :
    (whWrite w (.memH i p) data off).mems j = w.mems j := by
  show (if j = i then fmSet (w.mems i) p
      (overwrite ((whGet w (.memH i p)).getD []) off data) else w.mems j) = w.mems j
  rw [if_neg hji]

theorem copyLoop_eq_on {α : Type} (f : World → α) (h : WHandle) (c : List Nat)
    (hf : ∀ w data off, f (whWrite w h data off) = f w) :
    ∀ (fuel off : Nat) (w : World), f (copyLoop c off fuel w h) = f w := by
  intro fuel
  induction fuel with
  | zero => intro off w; rfl
  | succ fuel ih =>
    intro off w
    cases hrd : readAtModel c 32768 off with
    | mk chunk er =>
      have hbody : copyLoop c off (fuel + 1) w h =
          (if er.isSome then (if chunk.isEmpty then w else whWrite w h chunk off)
           else copyLoop c (off + chunk.length) fuel
             (if chunk.isEmpty then w else whWrite w h chunk off) h) := by
        conv_lhs => unfold copyLoop
        rw [hrd]
      rw [hbody]
      have hw1 : f (if chunk.isEmpty then w else whWrite w h chunk off) = f w := by
        by_cases hce : chunk.isEmpty = true
        · rw [if_pos hce]
        · rw [if_neg hce]
          exact hf w chunk off
      by_cases he : er.isSome = true
      · rw [if_pos he]
        exact hw1
      · rw [if_neg he]
        rw [ih (off + chunk.length) (if chunk.isEmpty then w else whWrite w h chunk off)]
        exact hw1

/-- `Stat` of a `mem` mount reporting a regular file means the path is not
the mount root and the store holds the file. -/
theorem memStat_ok_file (i : Nat) (w : World) (p : GoStr) (st : FileInfo)
    (h : mfsStat (.mem i) w p = .ok st) (hreg : st.isDir = false) :
    ¬ p = ['/'] ∧ ∃ c, fmLookup (w.mems i) p = some c := by
  by_cases hp : p = ['/']
  · exfalso
    rw [hp] at h
    have hred : mfsStat (.mem i) w ['/'] = .ok (topDirPath ['/']) := rfl
    rw [hred] at h
    injection h with h2
    rw [← h2] at hreg
    simp [topDirPath] at hreg
  · refine ⟨hp, ?_⟩
    cases hopt : fmLookup (w.mems i) p with
    | some c => exact ⟨c, rfl⟩
    | none =>
      exfalso
      have hred : mfsStat (.mem i) w p = .error .notExist := by
        simp only [mfsStat, if_neg hp, hopt]
      rw [hred] at h
      exact Except.noConfusion h

/-- `Stat` of a `dir` mount reporting a regular file means the path is not
the mount root, the host translation succeeds, and the host holds the
file. -/
theorem dirStat_ok_file (root : GoStr) (ro : Bool) (w : World) (p : GoStr) (st : FileInfo)
    (h : mfsStat (.dir root ro) w p = .ok st) (hreg : st.isDir = false) :
    ¬ p = ['/'] ∧ ∃ abs c, DirFs.IntoAbsPath ⟨root, ro⟩ p = .ok abs ∧
      fmLookup w.host abs = some c := by
  by_cases hp : p = ['/']
  · exfalso
    rw [hp] at h
    have hred : mfsStat (.dir root ro) w ['/'] =
        .ok { topDirPath (goBase root) with name := ['/'] } := rfl
    rw [hred] at h
    injection h with h2
    rw [← h2] at hreg
    simp [topDirPath] at hreg
  · refine ⟨hp, ?_⟩
    cases hia : DirFs.IntoAbsPath ⟨root, ro⟩ p with
    | error e =>
      exfalso
      have hred : mfsStat (.dir root ro) w p = .error e := by
        simp only [mfsStat, if_neg hp, hia]
      rw [hred] at h
      exact Except.noConfusion h
    | ok abs =>
      cases hopt : fmLookup w.host abs with
      | some c => exact ⟨abs, c, rfl, hopt⟩
      | none =>
        exfalso
        have hred : mfsStat (.dir root ro) w p = .error .notExist := by
          simp only [mfsStat, if_neg hp, hia, hopt]
        rw [hred] at h
        exact Except.noConfusion h

/-- `Stat` of a `mem` mount reporting `notExist` means the path is not the
mount root and the store has no such file. -/
theorem memStat_notExist (j : Nat) (w : World) (p : GoStr)
    (h : mfsStat (.mem j) w p = .error .notExist) :
    ¬ p = ['/'] ∧ fmLookup (w.mems j) p = none := by
  by_cases hp : p = ['/']
  · exfalso
    rw [hp] at h
    have hred : mfsStat (.mem j) w ['/'] = .ok (topDirPath ['/']) := rfl
    rw [hred] at h
    exact Except.noConfusion h
  · refine ⟨hp, ?_⟩
    cases hopt : fmLookup (w.mems j) p with
    | none => rfl
    | some c =>
      exfalso
      have hred : mfsStat (.mem j) w p = .ok (fileInfoOf p c) := by
        simp only [mfsStat, if_neg hp, hopt]
      rw [hred] at h
      exact Except.noConfusion h

/-- The copy-and-delete fallback between two distinct `mem` mounts moves the
file content. -/
theorem renameFileFallback_mem_mem (i j : Nat) (hij : i ≠ j) (subSrc subDst : GoStr)
    (w w' : World) (stInfo : FileInfo)
    (hstat : mfsStat (.mem i) w subSrc = .ok stInfo) (hreg : stInfo.isDir = false)
    (hdstat : mfsStat (.mem j) w subDst = .error .notExist)
    (hfb : renameFileFallback (.mem i) (.mem j) subSrc subDst w = .ok w') :
    ∃ content, mfsRead (.mem i) w subSrc = .ok content ∧
      mfsRead (.mem j) w' subDst = .ok content ∧
      mfsStat (.mem i) w' subSrc = .error .notExist := by
  obtain ⟨hpS, content, hlookS⟩ := memStat_ok_file i w subSrc stInfo hstat hreg
  obtain ⟨hpD, hlookD⟩ := memStat_notExist j w subDst hdstat
  have hreadS : mfsRead (.mem i) w subSrc = .ok content := by
    simp only [mfsRead, hlookS]
  have hnone : whGet w (WHandle.memH j subDst) = none := hlookD
  have hw : mfsWrite (.mem j) w subDst =
      .ok (WHandle.memH j subDst, whSet w (.memH j subDst) []) := by
    show Except.ok (WHandle.memH j subDst,
        if (whGet w (WHandle.memH j subDst)).isSome then w
        else whSet w (.memH j subDst) []) =
      Except.ok (WHandle.memH j subDst, whSet w (.memH j subDst) [])
    rw [hnone]
    exact rfl
  have hfb2 : renameFileFallback (.mem i) (.mem j) subSrc subDst w =
      mfsRm (.mem i)
        (copyLoop content 0 (content.length + 1)
          (whSet w (.memH j subDst) []) (.memH j subDst)) subSrc := by
    unfold renameFileFallback
    rw [hreadS, hw]
  rw [hfb2] at hfb
  set W := copyLoop content 0 (content.length + 1)
    (whSet w (.memH j subDst) []) (.memH j subDst) with hW
  have hget2 : whGet W (WHandle.memH j subDst) = some content := by
    rw [hW]
    refine copyLoop_get content (content.length + 1) 0 _ _ ?_ (by omega)
    rw [List.take_zero]
    exact whGet_whSet_self w (.memH j subDst) []
  have hmemsI : W.mems i = w.mems i := by
    rw [hW]
    have h1 : (copyLoop content 0 (content.length + 1)
        (whSet w (.memH j subDst) []) (.memH j subDst)).mems i =
        (whSet w (.memH j subDst) []).mems i :=
      copyLoop_eq_on (fun u => u.mems i) (.memH j subDst) content
        (fun u data off => whWrite_mems_memH_ne u j subDst data off i hij)
        (content.length + 1) 0 (whSet w (.memH j subDst) [])
    rw [h1]
    show (if i = j then fmSet (w.mems j) subDst [] else w.mems i) = w.mems i
    rw [if_neg hij]
  have hlookS2 : fmLookup (W.mems i) subSrc = some content := by
    rw [hmemsI]
    exact hlookS
  have hrm : mfsRm (.mem i) W subSrc = .ok (whRemove W (.memH i subSrc)) := by
    simp only [mfsRm, if_neg hpS, hlookS2]
  rw [hrm] at hfb
  injection hfb with hfbEq
  subst hfbEq
  refine ⟨content, hreadS, ?_, ?_⟩
  · have hlookD2 : fmLookup ((whRemove W (.memH i subSrc)).mems j) subDst =
        some content := by
      show fmLookup (if j = i then fmRemove (W.mems i) subSrc else W.mems j) subDst =
        some content
      rw [if_neg (fun hh => hij hh.symm)]
      exact hget2
    simp only [mfsRead, hlookD2]
  · have hlookS3 : fmLookup ((whRemove W (.memH i subSrc)).mems i) subSrc = none := by
      show fmLookup (if i = i then fmRemove (W.mems i) subSrc else W.mems i) subSrc = none
      rw [if_pos rfl]
      exact fmLookup_fmRemove_self _ _
    simp only [mfsStat, if_neg hpS, hlookS3]

/-- The copy-and-delete fallback from a `mem` mount to a writable `dir`
mount moves the file content. -/
theorem renameFileFallback_mem_dir (i : Nat) (r2 : GoStr) (ro2 : Bool)
    (subSrc subDst : GoStr) (w w' : World) (stInfo : FileInfo)
    (hstat : mfsStat (.mem i) w subSrc = .ok stInfo) (hreg : stInfo.isDir = false)
    (hdstat : mfsStat (.dir r2 ro2) w subDst = .error .notExist)
    (hfb : renameFileFallback (.mem i) (.dir r2 ro2) subSrc subDst w = .ok w') :
    ∃ content, mfsRead (.mem i) w subSrc = .ok content ∧
      mfsRead (.dir r2 ro2) w' subDst = .ok content ∧
      mfsStat (.mem i) w' subSrc = .error .notExist := by
  obtain ⟨hpS, content, hlookS⟩ := memStat_ok_file i w subSrc stInfo hstat hreg
  have hreadS : mfsRead (.mem i) w subSrc = .ok content := by
    simp only [mfsRead, hlookS]
  have hpD : ¬ subDst = ['/'] := by
    intro hp
    rw [hp] at hdstat
    have hred : mfsStat (.dir r2 ro2) w ['/'] =
        .ok { topDirPath (goBase r2) with name := ['/'] } := rfl
    rw [hred] at hdstat
    exact Except.noConfusion hdstat
  cases hia : DirFs.IntoAbsPath ⟨r2, ro2⟩ subDst with
  | error e =>
    exfalso
    have hwErr : mfsWrite (.dir r2 ro2) w subDst = .error e := by
      simp only [mfsWrite, hia]
    have hfb2 : renameFileFallback (.mem i) (.dir r2 ro2) subSrc subDst w =
        .error e := by
      unfold renameFileFallback
      rw [hreadS, hwErr]
    rw [hfb2] at hfb
    exact Except.noConfusion hfb
  | ok absD =>
    cases ro2 with
    | true =>
      exfalso
      have hwErr : mfsWrite (.dir r2 true) w subDst = .error .forbidden := by
        simp only [mfsWrite, hia, reduceIte]
      have hfb2 : renameFileFallback (.mem i) (.dir r2 true) subSrc subDst w =
          .error .forbidden := by
        unfold renameFileFallback
        rw [hreadS, hwErr]
      rw [hfb2] at hfb
      exact Except.noConfusion hfb
    | false =>
      have hlookD : fmLookup w.host absD = none := by
        cases hopt : fmLookup w.host absD with
        | none => rfl
        | some cD =>
          exfalso
          have hred : mfsStat (.dir r2 false) w subDst = .ok (fileInfoOf absD cD) := by
            simp only [mfsStat, if_neg hpD, hia, hopt]
          rw [hred] at hdstat
          exact Except.noConfusion hdstat
      have hnone : whGet w (WHandle.hostH absD) = none := hlookD
      have hw : mfsWrite (.dir r2 false) w subDst =
          .ok (WHandle.hostH absD, whSet w (.hostH absD) []) := by
        have hstep : mfsWrite (.dir r2 false) w subDst =
            Except.ok (WHandle.hostH absD,
              if (whGet w (WHandle.hostH absD)).isSome then w
              else whSet w (.hostH absD) []) := by
          simp only [mfsWrite, hia, reduceIte]
          exact rfl
        rw [hstep, hnone]
        exact rfl
      have hfb2 : renameFileFallback (.mem i) (.dir r2 false) subSrc subDst w =
          mfsRm (.mem i)
            (copyLoop content 0 (content.length + 1)
              (whSet w (.hostH absD) []) (.hostH absD)) subSrc := by
        unfold renameFileFallback
        rw [hreadS, hw]
      rw [hfb2] at hfb
      set W := copyLoop content 0 (content.length + 1)
        (whSet w (.hostH absD) []) (.hostH absD) with hW
      have hget2 : whGet W (WHandle.hostH absD) = some content := by
        rw [hW]
        refine copyLoop_get content (content.length + 1) 0 _ _ ?_ (by omega)
        rw [List.take_zero]
        exact whGet_whSet_self w (.hostH absD) []
      have hmems2 : W.mems = w.mems := by
        rw [hW]
        exact copyLoop_eq_on World.mems (.hostH absD) content (fun _ _ _ => rfl)
          (content.length + 1) 0 (whSet w (.hostH absD) [])
      have hlookS2 : fmLookup (W.mems i) subSrc = some content := by
        rw [hmems2]
        exact hlookS
      have hrm : mfsRm (.mem i) W subSrc = .ok (whRemove W (.memH i subSrc)) := by
        simp only [mfsRm, if_neg hpS, hlookS2]
      rw [hrm] at hfb
      injection hfb with hfbEq
      subst hfbEq
      refine ⟨content, hreadS, ?_, ?_⟩
      · have hlookD2 : fmLookup ((whRemove W (.memH i subSrc)).host) absD =
            some content := by
          show fmLookup W.host absD = some content
          exact hget2
        simp only [mfsRead, hia, hlookD2]
      · have hlookS3 : fmLookup ((whRemove W (.memH i subSrc)).mems i) subSrc = none := by
          show fmLookup (if i = i then fmRemove (W.mems i) subSrc else W.mems i) subSrc =
            none
          rw [if_pos rfl]
          exact fmLookup_fmRemove_self _ _
        simp only [mfsStat, if_neg hpS, hlookS3]

/-- The copy-and-delete fallback from a writable `dir` mount to a `mem`
mount moves the file content. -/
theorem renameFileFallback_dir_mem (r1 : GoStr) (ro1 : Bool) (j : Nat)
    (subSrc subDst : GoStr) (w w' : World) (stInfo : FileInfo)
    (hstat : mfsStat (.dir r1 ro1) w subSrc = .ok stInfo) (hreg : stInfo.isDir = false)
    (hdstat : mfsStat (.mem j) w subDst = .error .notExist)
    (hfb : renameFileFallback (.dir r1 ro1) (.mem j) subSrc subDst w = .ok w') :
    ∃ content, mfsRead (.dir r1 ro1) w subSrc = .ok content ∧
      mfsRead (.mem j) w' subDst = .ok content ∧
      mfsStat (.dir r1 ro1) w' subSrc = .error .notExist := by
  obtain ⟨hpS, absS, content, hiaS, hlookS⟩ :=
    dirStat_ok_file r1 ro1 w subSrc stInfo hstat hreg
  obtain ⟨hpD, hlookD⟩ := memStat_notExist j w subDst hdstat
  have hreadS : mfsRead (.dir r1 ro1) w subSrc = .ok content := by
    simp only [mfsRead, hiaS, hlookS]
  have hnone : whGet w (WHandle.memH j subDst) = none := hlookD
  have hw : mfsWrite (.mem j) w subDst =
      .ok (WHandle.memH j subDst, whSet w (.memH j subDst) []) := by
    show Except.ok (WHandle.memH j subDst,
        if (whGet w (WHandle.memH j subDst)).isSome then w
        else whSet w (.memH j subDst) []) =
      Except.ok (WHandle.memH j subDst, whSet w (.memH j subDst) [])
    rw [hnone]
    exact rfl
  have hfb2 : renameFileFallback (.dir r1 ro1) (.mem j) subSrc subDst w =
      mfsRm (.dir r1 ro1)
        (copyLoop content 0 (content.length + 1)
          (whSet w (.memH j subDst) []) (.memH j subDst)) subSrc := by
    unfold renameFileFallback
    rw [hreadS, hw]
  rw [hfb2] at hfb
  set W := copyLoop content 0 (content.length + 1)
    (whSet w (.memH j subDst) []) (.memH j subDst) with hW
  have hget2 : whGet W (WHandle.memH j subDst) = some content := by
    rw [hW]
    refine copyLoop_get content (content.length + 1) 0 _ _ ?_ (by omega)
    rw [List.take_zero]
    exact whGet_whSet_self w (.memH j subDst) []
  have hhost2 : W.host = w.host := by
    rw [hW]
    exact copyLoop_eq_on World.host (.memH j subDst) content (fun _ _ _ => rfl)
      (content.length + 1) 0 (whSet w (.memH j subDst) [])
  cases ro1 with
  | true =>
    exfalso
    have hrmErr : mfsRm (.dir r1 true) W subSrc = .error .forbidden := by
      simp only [mfsRm, hiaS, reduceIte]
    rw [hrmErr] at hfb
    exact Except.noConfusion hfb
  | false =>
    have hlookS2 : fmLookup W.host absS = some content := by
      rw [hhost2]
      exact hlookS
    have hrm : mfsRm (.dir r1 false) W subSrc = .ok (whRemove W (.hostH absS)) := by
      simp only [mfsRm, hiaS, reduceIte, hlookS2]
      exact rfl
    rw [hrm] at hfb
    injection hfb with hfbEq
    subst hfbEq
    refine ⟨content, hreadS, ?_, ?_⟩
    · have hlookD2 : fmLookup ((whRemove W (.hostH absS)).mems j) subDst =
          some content := by
        show fmLookup (W.mems j) subDst = some content
        exact hget2
      simp only [mfsRead, hlookD2]
    · have hlookS3 : fmLookup ((whRemove W (.hostH absS)).host) absS = none := by
        show fmLookup (fmRemove W.host absS) absS = none
        exact fmLookup_fmRemove_self _ _
      simp only [mfsStat, if_neg hpS, hiaS, hlookS3]

/-- **C6.**  For every `CombinedFS.Rename(src, dst)` where `src` and `dst`
resolve to two different inner mounts that are not both native-directory
mounts, the destination does not already exist, and the source names a
regular file: if the rename succeeds, then afterwards the destination
exists with byte-for-byte identical content to the original source file
and the source no longer exists. -/
theorem combinedFS_crossMount_file_rename (c : CombinedFS) (w w' : World)
    (src dst subSrc subDst : GoStr) (sfsS sfsD : MFS) (stInfo : FileInfo)
    (hsrc : c.Extract src = .ok (subSrc, sfsS))
    (hdst : c.Extract dst = .ok (subDst, sfsD))
    (hne : sfsS ≠ sfsD)
    (hnotboth : ¬ (sfsS.isOsDir = true ∧ sfsD.isOsDir = true))
    (hstat : mfsStat sfsS w subSrc = .ok stInfo)
    (hreg : stInfo.isDir = false)
    (hdstat : mfsStat sfsD w subDst = .error .notExist)
    (hren : CombinedFS.Rename c w src dst = .ok w') :
    ∃ content, mfsRead sfsS w subSrc = .ok content ∧
      mfsRead sfsD w' subDst = .ok content ∧
      mfsStat sfsS w' subSrc = .error .notExist := by
  have hsd : ¬ (src = ['/'] ∨ dst = ['/']) := by
    intro hor
    rcases hor with h | h <;> simp [CombinedFS.Rename, h] at hren
  have hne2 : ¬ src = dst := by
    intro heq
    rw [heq, hdst] at hsrc
    injection hsrc with h
    injection h with h1 h2
    exact hne h2.symm
  have hsub : ¬ (subSrc = ['/'] ∨ subDst = ['/']) := by
    intro hor
    simp [CombinedFS.Rename, hsd, hne2, hsrc, hdst, hor] at hren
  cases sfsS with
  | mem i =>
    cases sfsD with
    | mem j =>
      have hij : i ≠ j := fun h => hne (congrArg MFS.mem h)
      simp [CombinedFS.Rename, hsd, hne2, hsrc, hdst, hsub, hij, hstat, hdstat,
        hreg] at hren
      exact renameFileFallback_mem_mem i j hij subSrc subDst w w' stInfo
        hstat hreg hdstat hren
    | dir r2 ro2 =>
      simp [CombinedFS.Rename, hsd, hne2, hsrc, hdst, hsub, hstat, hdstat,
        hreg] at hren
      exact renameFileFallback_mem_dir i r2 ro2 subSrc subDst w w' stInfo
        hstat hreg hdstat hren
  | dir r1 ro1 =>
    cases sfsD with
    | mem j =>
      simp [CombinedFS.Rename, hsd, hne2, hsrc, hdst, hsub, hstat, hdstat,
        hreg] at hren
      exact renameFileFallback_dir_mem r1 ro1 j subSrc subDst w w' stInfo
        hstat hreg hdstat hren
    | dir r2 ro2 => exact absurd ⟨rfl, rfl⟩ hnotboth

/-- Concrete instance for the C6 witness: two in-memory mounts `docs` and
`pics`, with `/x.txt` stored in `docs`. -/
def c6Combined : CombinedFS := ⟨[("docs".toList, .mem 0), ("pics".toList, .mem 1)]⟩

/-- The initial world of the C6 witness. -/
def c6w0 : World := ⟨[], fun k => if k = 0 then [("/x.txt".toList, [7, 8, 9])] else []⟩

/-- The world after the witness rename: write the destination, copy, remove
the source. -/
def c6wFinal : World :=
  whRemove
    (copyLoop [7, 8, 9] 0 4 (whSet c6w0 (.memH 1 "/x.txt".toList) [])
      (.memH 1 "/x.txt".toList))
    (.memH 0 "/x.txt".toList)

/-- Witness for C6: renaming `/docs/x.txt` to `/pics/x.txt` across the two
in-memory mounts moves the three bytes and removes the source. -/
theorem combinedFS_crossMount_file_rename_witness :
    ∃ content, mfsRead (.mem 0) c6w0 "/x.txt".toList = .ok content ∧
      mfsRead (.mem 1) c6wFinal "/x.txt".toList = .ok content ∧
      mfsStat (.mem 0) c6wFinal "/x.txt".toList = .error .notExist :=
  combinedFS_crossMount_file_rename c6Combined c6w0 c6wFinal
    "/docs/x.txt".toList "/pics/x.txt".toList "/x.txt".toList "/x.txt".toList
    (.mem 0) (.mem 1) (fileInfoOf "/x.txt".toList [7, 8, 9])
    rfl rfl (by decide) (by decide) rfl rfl rfl rfl

end Sshtool
